import Mathlib

/-!
# Verification of the FST demonstration programs

Shallow embedding of `src/case_converter.cpp` and `src/reverse_userInput.cpp`.

Conventions of the embedding.

* A C++ `std::string` is a `List Char` (`Str`); a `char` converted to an integer
  label is its code point.
* Symbol keys and arc labels are `Int` (the library's `kNoSymbol` is `-1`);
  where the source stores a 64-bit key in an `int`, the key goes through
  `toInt`, the value modulo `2^32`.
* A state identifier is a `Nat`; the library's `kNoStateId` start state of a
  graph without start is `none`.
* A `TropicalWeight` is an `Option Nat`: `none` is `Zero` (plus infinity),
  `some 0` is `One`, `Times` adds.  The programs only ever use `One`.
* The OpenFst library (`SymbolTable`, `StdVectorFst`, `Compose`, `Connect`,
  `ShortestPath`) is not part of the sources; it is modelled from the
  specification and the contract of the library, each such definition says so
  in its comment.
* Undefined behaviour (indexing a state that does not exist) is `none`.
-/

/-! ## The library: weights, arcs, graphs, symbol tables -/

namespace Fst

/-- A `std::string`. -/
abbrev Str := List Char

/-- The tropical weight: `none` is `Zero`, `some 0` is `One`. -/
abbrev TropicalWeight := Option Nat

/-- The weight `TropicalWeight::One()`. -/
def TropicalWeight.One : TropicalWeight := some 0

/-- The weight `TropicalWeight::Zero()`. -/
def TropicalWeight.Zero : TropicalWeight := none

/-- The product `Times` of the tropical semiring. -/
def Times : TropicalWeight → TropicalWeight → TropicalWeight
  | some a, some b => some (a + b)
  | _, _ => none

/-- The library constant `kNoSymbol`. -/
def kNoSymbol : Int := -1

/-- The conversion of a 64-bit symbol key to the 32-bit `int` of an arc label,
as in `int id = syms.Find(s)`: the value modulo `2^32`, taken in
`-2^31 .. 2^31 - 1`. -/
def toInt (key : Int) : Int := (key + 2147483648) % 4294967296 - 2147483648

/-- An arc, `StdArc`: input label, output label, weight, destination state. -/
structure StdArc where
  ilabel : Int
  olabel : Int
  weight : TropicalWeight
  nextstate : Nat
deriving DecidableEq

/-- One state of a `StdVectorFst`: its final weight (`Zero` when the state is
not final) and its outgoing arcs in insertion order. -/
structure VectorState where
  final : TropicalWeight
  arcs : List StdArc
deriving DecidableEq

/-- A graph, `StdVectorFst`: the start state and the vector of states. -/
structure StdVectorFst where
  start : Option Nat
  states : List VectorState
deriving DecidableEq

/-- The default-constructed graph `StdVectorFst()`: no state, no start. -/
def StdVectorFst.empty : StdVectorFst := ⟨none, []⟩

/-- The call `fst.NumStates()`. -/
def StdVectorFst.NumStates (fst : StdVectorFst) : Nat := fst.states.length

/-- The call `fst.AddState()`: appends a non-final state without arcs and returns its
identifier, the previous number of states. -/
def StdVectorFst.AddState (fst : StdVectorFst) : StdVectorFst × Nat :=
  ({ fst with states := fst.states ++ [⟨TropicalWeight.Zero, []⟩] }, fst.states.length)

/-- The call `fst.SetStart(s)`. -/
def StdVectorFst.SetStart (fst : StdVectorFst) (s : Nat) : StdVectorFst :=
  { fst with start := some s }

/-- The call `fst.SetFinal(s, w)`; a state that does not exist is left alone. -/
def StdVectorFst.SetFinal (fst : StdVectorFst) (s : Nat) (w : TropicalWeight) : StdVectorFst :=
  { fst with states := fst.states.modify (fun st => { st with final := w }) s }

/-- The call `fst.AddArc(s, arc)`: appends the arc to the arcs of state `s`. -/
def StdVectorFst.AddArc (fst : StdVectorFst) (s : Nat) (arc : StdArc) : StdVectorFst :=
  { fst with states := fst.states.modify (fun st => { st with arcs := st.arcs ++ [arc] }) s }

/-- The call `fst.NumArcs(s)`; `none` when state `s` does not exist. -/
def StdVectorFst.NumArcs (fst : StdVectorFst) (s : Nat) : Option Nat :=
  (fst.states[s]?).map (fun st => st.arcs.length)

/-- The call `fst.Final(s)`, `Zero` for a state that does not exist. -/
def StdVectorFst.Final (fst : StdVectorFst) (s : Nat) : TropicalWeight :=
  match fst.states[s]? with
  | some st => st.final
  | none => TropicalWeight.Zero

/-- The arcs leaving state `s` (what an `ArcIterator` enumerates). -/
def StdVectorFst.Arcs (fst : StdVectorFst) (s : Nat) : List StdArc :=
  match fst.states[s]? with
  | some st => st.arcs
  | none => []

/-- Modelled from the spec: the symbol table of the library, which is not in
the sources (spec 4.1): the symbols with their keys in insertion order and the
next key `AddSymbol(symbol)` hands out. -/
structure SymbolTable where
  symbols : List (Str × Int)
  available_key : Int
deriving DecidableEq

/-- A new table, `SymbolTable("name")`: no symbol, next key 0. -/
def SymbolTable.empty : SymbolTable := ⟨[], 0⟩

/-- The call `syms.Find(symbol)`: the key of the symbol, `kNoSymbol` when it has none. -/
def SymbolTable.Find (syms : SymbolTable) (symbol : Str) : Int :=
  match syms.symbols.find? (fun e => e.1 == symbol) with
  | some e => e.2
  | none => kNoSymbol

/-- The call `syms.Find(key)`: the symbol with that key, the empty string when there is
none. -/
def SymbolTable.FindSymbol (syms : SymbolTable) (key : Int) : Str :=
  match syms.symbols.find? (fun e => e.2 == key) with
  | some e => e.1
  | none => []

/-- The call `syms.AddSymbol(symbol, key)`: a symbol already present keeps its key, which
is returned; otherwise the symbol is recorded with `key` and the next available
key moves past it. -/
def SymbolTable.AddSymbolKey (syms : SymbolTable) (symbol : Str) (key : Int) :
    SymbolTable × Int :=
  if key = kNoSymbol then (syms, key)
  else
    match syms.symbols.find? (fun e => e.1 == symbol) with
    | some e => (syms, e.2)
    | none =>
      (⟨syms.symbols ++ [(symbol, key)],
        if key ≥ syms.available_key then key + 1 else syms.available_key⟩, key)

/-- The call `syms.AddSymbol(symbol)`, which is `AddSymbol(symbol, available_key)`. -/
def SymbolTable.AddSymbol (syms : SymbolTable) (symbol : Str) : SymbolTable × Int :=
  syms.AddSymbolKey symbol syms.available_key

/-- The C library `toupper` in the "C" locale. -/
def toupper (c : Char) : Char :=
  if 'a'.toNat ≤ c.toNat ∧ c.toNat ≤ 'z'.toNat then Char.ofNat (c.toNat - 32) else c

end Fst

/-! ## Paths and reachability in a graph -/

namespace Fst

/-- The states of a chain that starts at state number `k`: one state per label
pair, each with a single arc of weight `One` to the next state number, closed
by an arc-less state of final weight `fin`. -/
def chainStates (k : Nat) (fin : TropicalWeight) : List (Int × Int) → List VectorState
  | [] => [⟨fin, []⟩]
  | l :: ls => ⟨TropicalWeight.Zero, [⟨l.1, l.2, TropicalWeight.One, k + 1⟩]⟩ ::
      chainStates (k + 1) fin ls

/-- The arcs of a chain that starts at state number `k`. -/
def chainArcs (k : Nat) : List (Int × Int) → List StdArc
  | [] => []
  | l :: ls => ⟨l.1, l.2, TropicalWeight.One, k + 1⟩ :: chainArcs (k + 1) ls

/-- From state `s` the graph is a single path spelled by `path`: every state on
it is not final and has exactly the one arc of the path, of weight other than
`Zero`, and the state the path ends in is final and has no arc. -/
def linearPath (g : StdVectorFst) : Nat → List StdArc → Bool
  | s, [] =>
    match g.states[s]? with
    | some st => st.arcs.isEmpty && st.final != TropicalWeight.Zero
    | none => false
  | s, a :: p =>
    match g.states[s]? with
    | some st => st.arcs == [a] && st.final == TropicalWeight.Zero &&
        a.weight != TropicalWeight.Zero && linearPath g a.nextstate p
    | none => false

/-- The graph is linear: it has a start state, and from it the graph is the
single path `path` to a final state. -/
def IsLinear (g : StdVectorFst) (path : List StdArc) : Prop :=
  ∃ s, g.start = some s ∧ linearPath g s path = true

/-- Follow the first arc of each state from `s` until a state without arcs,
for at most `fuel` arcs. -/
def followArcs (g : StdVectorFst) : Nat → Nat → List StdArc
  | 0, _ => []
  | fuel + 1, s =>
    match g.Arcs s with
    | [] => []
    | a :: _ => a :: followArcs g fuel a.nextstate

/-- The arcs met walking from the start state along first arcs. -/
def StdVectorFst.path (g : StdVectorFst) : List StdArc :=
  match g.start with
  | none => []
  | some s => followArcs g g.NumStates s

/-- Every state of the graph can be reached from state `s` in at most `fuel` arcs. -/
def reachIn (g : StdVectorFst) : Nat → Nat → Nat → Bool
  | 0, s, t => s == t
  | fuel + 1, s, t => s == t || (g.Arcs s).any (fun a => reachIn g fuel a.nextstate t)

/-- State `t` is reachable from the start state. -/
def StdVectorFst.accessible (g : StdVectorFst) (t : Nat) : Bool :=
  match g.start with
  | none => false
  | some s => reachIn g g.NumStates s t

/-- The states a path from `s` goes through, `s` first. -/
def pathStates (s : Nat) (p : List StdArc) : List Nat := s :: p.map (fun a => a.nextstate)

end Fst

/-! ## The library: `Connect`, `Compose`, `ShortestPath` -/

namespace Fst

/-- State `s` reaches a final state in at most `fuel` arcs. -/
def coreachIn (g : StdVectorFst) : Nat → Nat → Bool
  | 0, s => g.Final s != TropicalWeight.Zero
  | fuel + 1, s =>
    g.Final s != TropicalWeight.Zero || (g.Arcs s).any (fun a => coreachIn g fuel a.nextstate)

/-- Some final state is reachable from state `s`. -/
def StdVectorFst.coaccessible (g : StdVectorFst) (s : Nat) : Bool :=
  coreachIn g g.NumStates s

/-- Modelled from the spec: the trimming `Connect(&fst)` that ends the library's
`Compose`, not in the sources (spec 4.5, a failed composition is a graph of
zero states): it removes every state
that is not on a path from the start state to a final state, with the arcs
into it, and renumbers the states that stay in their order; the start state is
lost with its state. -/
def Connect (g : StdVectorFst) : StdVectorFst :=
  let keep : Nat → Bool := fun s => g.accessible s && g.coaccessible s
  let newId : Nat → Nat := fun s => ((List.range s).filter keep).length
  ⟨match g.start with
    | some s => if keep s then some (newId s) else none
    | none => none,
   ((List.range g.NumStates).filter keep).map (fun s =>
     ⟨g.Final s, ((g.Arcs s).filter (fun a => keep a.nextstate)).map
       (fun a => { a with nextstate := newId a.nextstate })⟩)⟩

/-- A state of a composition: a state of each operand and the state of the
epsilon filter. -/
structure ComposeTuple where
  s1 : Nat
  s2 : Nat
  fs : Nat
deriving DecidableEq

/-- Modelled from the spec: the moves of the library's composition, not in the
sources (spec 4.5, with the library's epsilon sequencing): the moves out of a
composed state, each with its labels, weight and
destination.  The second operand moves alone on an input epsilon of its own
(unless the first operand can only move on output epsilons); the first operand
moves alone on an output epsilon (only in filter state 0); both move on an arc
pair whose labels match, the input label coming from the first, the output
label from the second, the weight their `Times`. -/
def composeArcs (A B : StdVectorFst) (t : ComposeTuple) :
    List (StdArc × ComposeTuple) :=
  let arcs1 := A.Arcs t.s1
  let arcs2 := B.Arcs t.s2
  let ne1 := (arcs1.filter (fun a => a.olabel == 0)).length
  let alleps1 : Bool := ne1 == arcs1.length && A.Final t.s1 == TropicalWeight.Zero
  let noeps1 : Bool := ne1 == 0
  let alone2 : List (StdArc × ComposeTuple) :=
    if alleps1 then []
    else (arcs2.filter (fun a => a.ilabel == 0)).map (fun a2 =>
      (⟨0, a2.olabel, a2.weight, 0⟩, ⟨t.s1, a2.nextstate, if noeps1 then 0 else 1⟩))
  let moves1 : List (StdArc × ComposeTuple) :=
    arcs1.flatMap (fun a1 =>
      if a1.olabel == 0 then
        (if t.fs == 0 then [(⟨a1.ilabel, 0, a1.weight, 0⟩, ⟨a1.nextstate, t.s2, 0⟩)] else [])
      else
        (arcs2.filter (fun a => a.ilabel == a1.olabel)).map (fun a2 =>
          (⟨a1.ilabel, a2.olabel, Times a1.weight a2.weight, 0⟩,
            ⟨a1.nextstate, a2.nextstate, 0⟩)))
  alone2 ++ moves1

/-- The state table of a composition: the number of a tuple is its position,
a tuple not seen before is appended. -/
def findState (table : List ComposeTuple) (t : ComposeTuple) : List ComposeTuple × Nat :=
  let i := table.indexOf t
  if i < table.length then (table, i) else (table ++ [t], table.length)

/-- Number the destinations of the moves of one composed state. -/
def expandArcs : List (StdArc × ComposeTuple) → List ComposeTuple → List StdArc →
    List ComposeTuple × List StdArc
  | [], table, arcs => (table, arcs)
  | (a, t) :: rest, table, arcs =>
    let r := findState table t
    expandArcs rest r.1 (arcs ++ [{ a with nextstate := r.2 }])

/-- Expand the composed states in the order of their numbers, `s` being the
next one to expand. -/
def composeLoop (A B : StdVectorFst) :
    Nat → Nat → List ComposeTuple → List VectorState → List VectorState
  | 0, _, _, states => states
  | fuel + 1, s, table, states =>
    match table[s]? with
    | none => states
    | some t =>
      let r := expandArcs (composeArcs A B t) table []
      composeLoop A B fuel (s + 1) r.1
        (states ++ [⟨Times (A.Final t.s1) (B.Final t.s2), r.2⟩])

/-- Modelled from the spec: the library's `Compose(A, B, &result)`, not in the
sources (spec 4.5): the states
reachable from the pair of start states, numbered as they are met, then
`Connect`.  The fuel covers every tuple of states of the two operands. -/
def Compose (A B : StdVectorFst) : StdVectorFst :=
  match A.start, B.start with
  | some s1, some s2 =>
    Connect ⟨some 0,
      composeLoop A B (2 * (A.NumStates + 1) * (B.NumStates + 1)) 0 [⟨s1, s2, 0⟩] []⟩
  | _, _ => StdVectorFst.empty

/-- The better of two candidate paths, each with its total weight; the first
one stays on equal weights. -/
def betterPath (x y : Option (Nat × List StdArc)) : Option (Nat × List StdArc) :=
  match x, y with
  | none, y => y
  | x, none => x
  | some x, some y => if y.1 < x.1 then some y else some x

/-- A path of least weight from state `s` to a final state among those of at
most `fuel` arcs, with its weight; arcs of weight `Zero` are never taken. -/
def bestPath (g : StdVectorFst) : Nat → Nat → Option (Nat × List StdArc)
  | 0, s => (g.Final s).map (fun w => (w, []))
  | fuel + 1, s =>
    (g.Arcs s).foldl
      (fun best a =>
        match a.weight with
        | none => best
        | some w =>
          betterPath best ((bestPath g fuel a.nextstate).map (fun p => (w + p.1, a :: p.2))))
      ((g.Final s).map (fun w => (w, [])))

/-- The states the library's backtrace adds after the final one: the arcs of
the path from the last to the first, each pointing to the state added before. -/
def backtraceStates : List StdArc → Nat → List VectorState
  | [], _ => []
  | a :: as, j => ⟨TropicalWeight.Zero, [{ a with nextstate := j }]⟩ :: backtraceStates as (j + 1)

/-- The state a path from `s` ends in. -/
def pathEnd (s : Nat) (path : List StdArc) : Nat :=
  match path.getLast? with
  | some a => a.nextstate
  | none => s

/-- Modelled from the spec: the library's `ShortestPath(fst, &shortest)` with
one path, not in the sources (spec 4.6): the result holds a single path of least weight from the start state to a
final state of `fst`, its last state numbered 0 and its start state last; it
has no state when `fst` has no such path. -/
def ShortestPath (g : StdVectorFst) : StdVectorFst :=
  match g.start with
  | none => StdVectorFst.empty
  | some s =>
    match bestPath g g.NumStates s with
    | none => StdVectorFst.empty
    | some (_, path) =>
      ⟨some path.length, ⟨g.Final (pathEnd s path), []⟩ :: backtraceStates path.reverse 0⟩

end Fst

/-! ## The program `reverse_userInput.cpp` -/

namespace ReverseUserInput
open Fst

/-- First loop of `main`: `for (i = 0; i <= n; i++) states[i] = fst.AddState();`
over a work list of the indices, carrying the graph and the vector `states`. -/
def addStates : List Nat → StdVectorFst × List Nat → StdVectorFst × List Nat
  | [], acc => acc
  | _ :: is, (fst, states) =>
    let r := fst.AddState
    addStates is (r.1, states ++ [r.2])

/-- Second loop of `main`: for each `i < n` an arc from `states[i]` to
`states[i+1]` with input label `input[i]` and output label `input[n-1-i]`. -/
def addArcs (input : Str) (states : List Nat) : List Nat → StdVectorFst → StdVectorFst
  | [], fst => fst
  | i :: is, fst =>
    let n := input.length
    let in_char := input.getD i default
    let out_char := input.getD (n - 1 - i) default
    addArcs input states is
      (fst.AddArc (states.getD i 0)
        ⟨Int.ofNat in_char.toNat, Int.ofNat out_char.toNat, TropicalWeight.One,
          states.getD (i + 1) 0⟩)

/-- The graph that `main` of `reverse_userInput.cpp` builds for `input` and
writes to `reverse_user.fst`. -/
def main (input : Str) : StdVectorFst :=
  let fst0 : StdVectorFst := StdVectorFst.empty
  let r0 := fst0.AddState
  let fst1 := r0.1.SetStart r0.2
  let n := input.length
  let r := addStates (List.range (n + 1)) (fst1, [])
  let states := r.2
  let fst2 := r.1.SetStart (states.getD 0 0)
  let fst3 := fst2.SetFinal (states.getD n 0) TropicalWeight.One
  addArcs input states (List.range n) fst3

end ReverseUserInput

/-! ## The program `case_converter.cpp` -/

namespace CaseConverter
open Fst

/-- The loop of `StringToFst` over the characters still to read, carrying the
graph and `current_state`; the key found is kept as `int id`; `none` is the
early `return StdVectorFst()`. -/
def StringToFstLoop (syms : SymbolTable) :
    List Char → StdVectorFst → Nat → Option (StdVectorFst × Nat)
  | [], fst, current_state => some (fst, current_state)
  | c :: cs, fst, current_state =>
    let r := fst.AddState
    let next_state := r.2
    let s : Str := if c = ' ' then "_space_".toList else [c]
    let id := toInt (syms.Find s)
    if id = kNoSymbol then none
    else
      StringToFstLoop syms cs
        (r.1.AddArc current_state ⟨id, id, TropicalWeight.One, next_state⟩) next_state

/-- The function `StringToFst(str, syms)`: the acceptor of `str`, the graph
without states when for a character `int id` is `kNoSymbol`. -/
def StringToFst (str : Str) (syms : SymbolTable) : StdVectorFst :=
  let r := StdVectorFst.empty.AddState
  let fst := r.1.SetStart 0
  match StringToFstLoop syms str fst 0 with
  | none => StdVectorFst.empty
  | some (fst, current_state) => fst.SetFinal current_state TropicalWeight.One

/-- What `main` has built before it reads the input: the two symbol tables and
the converter graph. -/
structure Rules where
  isyms : SymbolTable
  osyms : SymbolTable
  converter_fst : StdVectorFst
deriving DecidableEq

/-- One round of a rule loop of `main`: intern `inp` and `out`, keep the keys
as `int in_id` and `int out_id`, and add the self-loop arc on state `s`. -/
def addRule (s : Nat) (inp out : Str) (r : Rules) : Rules :=
  let ri := r.isyms.AddSymbol inp
  let ro := r.osyms.AddSymbol out
  let in_id := toInt ri.2
  let out_id := toInt ro.2
  ⟨ri.1, ro.1, r.converter_fst.AddArc s ⟨in_id, out_id, TropicalWeight.One, s⟩⟩

/-- The letters the loop `for (char c = 'a'; c <= 'z'; ++c)` runs over. -/
def lowercase : List Char := (List.range 26).map (fun i => Char.ofNat ('a'.toNat + i))

/-- The vector `digit_words` of `main`. -/
def digit_words : List Str :=
  ["zero", "one", "two", "three", "four", "five", "six", "seven", "eight", "nine"].map
    String.toList

/-- The part of `main` that builds the symbol tables and the converter graph. -/
def buildRules : Rules :=
  let isyms := (SymbolTable.empty.AddSymbolKey "<eps>".toList 0).1
  let osyms := (SymbolTable.empty.AddSymbolKey "<eps>".toList 0).1
  let r0 := StdVectorFst.empty.AddState
  let s := r0.2
  let converter_fst := (r0.1.SetStart s).SetFinal s TropicalWeight.One
  let rules : Rules := ⟨isyms, osyms, converter_fst⟩
  let rules := lowercase.foldl (fun r c => addRule s [c] [toupper c] r) rules
  let rules := (List.range 10).foldl
    (fun r d => addRule s [Char.ofNat ('0'.toNat + d)] (digit_words.getD d [] ++ " ".toList) r)
    rules
  addRule s "_space_".toList "_space_".toList rules

/-- The `while` loop of `FstToString`, for at most `fuel` rounds; `none` when
`NumArcs` is asked of a state that does not exist or the fuel runs out. -/
def FstToStringLoop (shortest : StdVectorFst) (syms : SymbolTable) :
    Nat → Nat → Str → Option Str
  | 0, current_state, result =>
    match shortest.states[current_state]? with
    | none => none
    | some st => if st.arcs.isEmpty then some result else none
  | fuel + 1, current_state, result =>
    match shortest.states[current_state]? with
    | none => none
    | some st =>
      match st.arcs with
      | [] => some result
      | arc :: _ =>
        let sym := syms.FindSymbol arc.olabel
        let result := if sym ≠ [] ∧ sym ≠ "<eps>".toList then result ++ sym else result
        FstToStringLoop shortest syms fuel arc.nextstate result

/-- The function `FstToString(fst, syms)`; `none` when the walk leaves the states of
`shortest` (the start state of an empty `shortest` is no state). -/
def FstToString (fst : StdVectorFst) (syms : SymbolTable) : Option Str :=
  if fst.NumStates = 0 then some []
  else
    let shortest := ShortestPath fst
    match shortest.start with
    | none => none
    | some current_state =>
      FstToStringLoop shortest syms shortest.NumStates current_state []

/-- What a run of `main` shows: the exit status and the string printed after
`Converted: `, if that line is printed. -/
structure Run where
  status : Int
  converted : Option Str
deriving DecidableEq

/-- The final cleanup of `main`: drop one trailing space. -/
def cleanup (output : Str) : Str :=
  if output ≠ [] ∧ output.getLast? = some ' ' then output.dropLast else output

/-- The run of `main` on the line `user_input`. -/
def main (user_input : Str) : Option Run :=
  let rules := buildRules
  let input_fst := StringToFst user_input rules.isyms
  if input_fst.NumStates = 0 then some ⟨1, none⟩
  else
    let composed := Compose input_fst rules.converter_fst
    match FstToString composed rules.osyms with
    | none => none
    | some output => some ⟨0, some (cleanup output)⟩

end CaseConverter

/-! ## Vocabulary of the properties -/

namespace Fst

/-- The tuples `(0,0,0) .. (k,0,0)`: the state table of the composition of a
chain with a one-state graph once `k` arcs have been followed. -/
def chainTable (k : Nat) : List ComposeTuple :=
  (List.range (k + 1)).map (fun i => (⟨i, 0, 0⟩ : ComposeTuple))

/-- The one-state graph `B` answers every second label of `ls`: the label is
not epsilon and `B` has exactly one arc reading it, a self-loop of weight `One`
writing `out` of the label; `B` has no arc reading epsilon, its state 0 is its
start state and is final with weight `One`. -/
def Answers (B : StdVectorFst) (out : Int → Int) (ls : List (Int × Int)) : Prop :=
  B.start = some 0 ∧ B.Final 0 = TropicalWeight.One ∧
  (B.Arcs 0).filter (fun a => a.ilabel == 0) = [] ∧
  ∀ l ∈ ls, l.2 ≠ 0 ∧
    (B.Arcs 0).filter (fun a => a.ilabel == l.2) = [⟨l.2, out l.2, TropicalWeight.One, 0⟩]

end Fst

namespace ReverseUserInput
open Fst

/-- The label pairs of the reversal graph: position `i` carries the code of
`input[i]` and the code of `input[n-1-i]`. -/
def revLabels (input : Str) : List (Int × Int) :=
  (input.zip input.reverse).map (fun p => (Int.ofNat p.1.toNat, Int.ofNat p.2.toNat))

end ReverseUserInput

namespace CaseConverter
open Fst

/-- The token of a character of the input: the placeholder `_space_` for the
space character, the one-character string otherwise. -/
def token (c : Char) : Str := if c = ' ' then "_space_".toList else [c]

/-- Every character of the string has a token in the table. -/
def Supported (syms : SymbolTable) (s : Str) : Prop :=
  ∀ c ∈ s, syms.Find (token c) ≠ kNoSymbol

instance (syms : SymbolTable) (s : Str) : Decidable (Supported syms s) := by
  unfold Supported; infer_instance

/-- The code of the token of every character of the string fits the 32-bit
`int` of an arc label. -/
def FitsInt (syms : SymbolTable) (s : Str) : Prop :=
  ∀ c ∈ s, -2147483648 ≤ syms.Find (token c) ∧ syms.Find (token c) < 2147483648

instance (syms : SymbolTable) (s : Str) : Decidable (FitsInt syms s) := by
  unfold FitsInt; infer_instance

/-- The label pairs of the acceptor of a string: the code of each token, twice. -/
def acceptorLabels (syms : SymbolTable) (s : Str) : List (Int × Int) :=
  s.map (fun c => (syms.Find (token c), syms.Find (token c)))

/-- What one arc contributes to the decoded string: the token its output label
resolves to, nothing when that token is empty or is the epsilon token. -/
def decodeArc (syms : SymbolTable) (a : StdArc) : Str :=
  if syms.FindSymbol a.olabel = [] ∨ syms.FindSymbol a.olabel = "<eps>".toList then []
  else syms.FindSymbol a.olabel

/-- The character is a lowercase letter `a` .. `z`. -/
def IsLower (c : Char) : Prop := 'a'.toNat ≤ c.toNat ∧ c.toNat ≤ 'z'.toNat

/-- The character is a digit `0` .. `9`. -/
def IsDigit (c : Char) : Prop := '0'.toNat ≤ c.toNat ∧ c.toNat ≤ '9'.toNat

instance (c : Char) : Decidable (IsLower c) := by unfold IsLower; infer_instance

instance (c : Char) : Decidable (IsDigit c) := by unfold IsDigit; infer_instance

/-- The string is over the alphabet `a-z`, `0-9`, space. -/
def Accepted (s : Str) : Prop := ∀ c ∈ s, IsLower c ∨ IsDigit c ∨ c = ' '

instance (s : Str) : Decidable (Accepted s) := by unfold Accepted; infer_instance

/-- The 37 characters of the alphabet. -/
def alphabet : List Char := "abcdefghijklmnopqrstuvwxyz0123456789 ".toList

/-- The English name of a digit. -/
def englishName (c : Char) : Str :=
  if c = '0' then "zero".toList else if c = '1' then "one".toList
  else if c = '2' then "two".toList else if c = '3' then "three".toList
  else if c = '4' then "four".toList else if c = '5' then "five".toList
  else if c = '6' then "six".toList else if c = '7' then "seven".toList
  else if c = '8' then "eight".toList else if c = '9' then "nine".toList
  else []

/-- What the pipeline writes for one character of the alphabet: the uppercase
letter for a letter, the English name and one space for a digit, the
placeholder `_space_` for the space. -/
def rendering (c : Char) : Str :=
  if c = ' ' then "_space_".toList
  else if IsLower c then [c.toUpper]
  else englishName c ++ [' ']

end CaseConverter

/-! ## Vocabulary of the properties of composition and of the tables -/

namespace Fst

/-- The states of `B` that are reachable in step with the chain of labels `ls`:
`InStep B ls j q` says that `B` can be in state `q` when the chain has given
its first `j` labels.  `B` starts in its start state, moves alone on an arc
reading epsilon, stays when the chain gives an epsilon, and follows an arc
reading the label the chain gives. -/
inductive InStep (B : StdVectorFst) (ls : List (Int × Int)) : Nat → Nat → Prop
  | start (q : Nat) : B.start = some q → InStep B ls 0 q
  | eps (j q : Nat) (a : StdArc) :
      InStep B ls j q → a ∈ B.Arcs q → a.ilabel = 0 → InStep B ls j a.nextstate
  | skip (j q : Nat) (l : Int × Int) :
      InStep B ls j q → ls[j]? = some l → l.2 = 0 → InStep B ls (j + 1) q
  | read (j q : Nat) (l : Int × Int) (a : StdArc) :
      InStep B ls j q → ls[j]? = some l → l.2 ≠ 0 → a ∈ B.Arcs q → a.ilabel = l.2 →
      InStep B ls (j + 1) a.nextstate

/-- At position `i` the chain gives a label other than epsilon that no arc of
`B` reachable in step with the chain reads. -/
def Mismatch (B : StdVectorFst) (ls : List (Int × Int)) (i : Nat) : Prop :=
  ∃ l, ls[i]? = some l ∧ l.2 ≠ 0 ∧
    ∀ q a, InStep B ls i q → a ∈ B.Arcs q → a.ilabel ≠ l.2

/-- No state of the graph is final. -/
def NoFinal (states : List VectorState) : Prop :=
  ∀ st ∈ states, st.final = TropicalWeight.Zero

/-- From state `s` the graph is a single path spelled by `path` to a state
with no outgoing arc, whatever the final weights and the weights of the arcs:
every state on the path has exactly the one arc of the path, and the state the
path ends in has no arc. -/
def barePath (g : StdVectorFst) : Nat → List StdArc → Bool
  | s, [] =>
    match g.states[s]? with
    | some st => st.arcs.isEmpty
    | none => false
  | s, a :: p =>
    match g.states[s]? with
    | some st => st.arcs == [a] && barePath g a.nextstate p
    | none => false

/-- The graph is linear in the sense of the data model: it has a start state,
every state is reachable from it, each state has at most one outgoing arc, a
final state has none, and from the start state the graph is a single path to a
final state. -/
def IsLinearGraph (G : StdVectorFst) : Prop :=
  (∃ s0, G.start = some s0) ∧
  (∀ i, i < G.NumStates → G.accessible i = true) ∧
  (∀ i, (G.Arcs i).length ≤ 1) ∧
  (∀ i, G.Final i ≠ TropicalWeight.Zero → G.Arcs i = []) ∧
  IsLinear G G.path

end Fst

namespace CaseConverter
open Fst

/-- The converter graph read as a lookup map, as the specification words it:
from the input code of each arc to its output code and weight. -/
def lookupMap (B : StdVectorFst) : List (Int × (Int × TropicalWeight)) :=
  (B.Arcs 0).map (fun a => (a.ilabel, (a.olabel, a.weight)))

/-- The per-character table given by the arcs of the converter: the token of
the output code the lookup map gives for the input code of the character. -/
def lookupChar (r : Rules) (c : Char) : Str :=
  match (lookupMap r.converter_fst).lookup (r.isyms.Find (token c)) with
  | some e => r.osyms.FindSymbol e.1
  | none => []

/-- The conversion by direct lookup, as the specification words it: the
concatenation over the characters of what the table gives for each. -/
def directConvert (r : Rules) (s : Str) : Str := s.flatMap (lookupChar r)

end CaseConverter

/-! ## Lemmas on chains -/

namespace Fst

theorem drop_eq_cons_getElem? {α : Type} {l : List α} {k : Nat} {x : α} {r : List α}
    (h : l.drop k = x :: r) : l[k]? = some x ∧ l.drop (k + 1) = r := by
  constructor
  · have := congrArg (fun m => m[0]?) h
    simpa using this
  · have := congrArg (fun m => m.drop 1) h
    simpa [List.drop_drop, Nat.add_comm] using this

theorem chainArcs_length (k : Nat) (ls : List (Int × Int)) :
    (chainArcs k ls).length = ls.length := by
  induction ls generalizing k with
  | nil => rfl
  | cons l ls ih => simp [chainArcs, ih]

theorem chainStates_length (k : Nat) (fin : TropicalWeight) (ls : List (Int × Int)) :
    (chainStates k fin ls).length = ls.length + 1 := by
  induction ls generalizing k with
  | nil => rfl
  | cons l ls ih => simp [chainStates, ih]

theorem chainStates_getElem? (k : Nat) (fin : TropicalWeight) (ls : List (Int × Int)) (i : Nat) :
    (chainStates k fin ls)[i]? =
      if i < ls.length then
        (ls[i]?).map (fun l =>
          (⟨TropicalWeight.Zero, [⟨l.1, l.2, TropicalWeight.One, k + i + 1⟩]⟩ : VectorState))
      else if i = ls.length then some ⟨fin, []⟩ else none := by
  induction ls generalizing k i with
  | nil =>
    cases i with
    | zero => simp [chainStates]
    | succ i => simp [chainStates]
  | cons l ls ih =>
    cases i with
    | zero => simp [chainStates]
    | succ i =>
      simp only [chainStates, List.getElem?_cons_succ, ih, List.length_cons,
        Nat.add_lt_add_iff_right, Nat.add_right_cancel_iff]
      have e : k + 1 + i + 1 = k + (i + 1) + 1 := by omega
      rw [e]

theorem linearPath_chain (g : StdVectorFst) (k : Nat) (fin : TropicalWeight)
    (ls : List (Int × Int)) (hfin : fin ≠ TropicalWeight.Zero)
    (h : g.states.drop k = chainStates k fin ls) :
    linearPath g k (chainArcs k ls) = true := by
  induction ls generalizing k with
  | nil =>
    obtain ⟨h1, _⟩ := drop_eq_cons_getElem? h
    simp [linearPath, chainArcs, h1, hfin]
  | cons l ls ih =>
    obtain ⟨h1, h2⟩ := drop_eq_cons_getElem? h
    have := ih (k + 1) h2
    simp [linearPath, chainArcs, h1, this, TropicalWeight.Zero, TropicalWeight.One]

theorem followArcs_chain (g : StdVectorFst) (k : Nat) (fin : TropicalWeight)
    (ls : List (Int × Int)) (fuel : Nat) (hfuel : ls.length ≤ fuel)
    (h : g.states.drop k = chainStates k fin ls) :
    followArcs g fuel k = chainArcs k ls := by
  induction ls generalizing k fuel with
  | nil =>
    obtain ⟨h1, _⟩ := drop_eq_cons_getElem? h
    cases fuel with
    | zero => rfl
    | succ fuel => simp [followArcs, chainArcs, StdVectorFst.Arcs, h1]
  | cons l ls ih =>
    obtain ⟨h1, h2⟩ := drop_eq_cons_getElem? h
    cases fuel with
    | zero => simp at hfuel
    | succ fuel =>
      have := ih (k + 1) fuel (by simpa using hfuel) h2
      simp [followArcs, chainArcs, StdVectorFst.Arcs, h1, this]

theorem reachIn_mono (g : StdVectorFst) (fuel : Nat) (s t : Nat)
    (h : reachIn g fuel s t = true) : reachIn g (fuel + 1) s t = true := by
  induction fuel generalizing s with
  | zero =>
    simp only [reachIn] at h
    simp [reachIn, h]
  | succ fuel ih =>
    rw [reachIn] at h
    rw [reachIn]
    simp only [Bool.or_eq_true, List.any_eq_true] at h ⊢
    rcases h with h | ⟨a, ha, h⟩
    · exact Or.inl h
    · exact Or.inr ⟨a, ha, ih _ h⟩

theorem reachIn_chain (g : StdVectorFst) (k : Nat) (fin : TropicalWeight)
    (ls : List (Int × Int)) (fuel : Nat) (hfuel : ls.length ≤ fuel)
    (h : g.states.drop k = chainStates k fin ls) (i : Nat) (hi : i ≤ ls.length) :
    reachIn g fuel k (k + i) = true := by
  induction ls generalizing k fuel i with
  | nil =>
    have : i = 0 := by simpa using hi
    subst this
    cases fuel <;> simp [reachIn]
  | cons l ls ih =>
    obtain ⟨h1, h2⟩ := drop_eq_cons_getElem? h
    cases fuel with
    | zero => simp at hfuel
    | succ fuel =>
      cases i with
      | zero => simp [reachIn]
      | succ i =>
        have := ih (k + 1) fuel (by simpa using hfuel) h2 i (by simpa using hi)
        have e : k + 1 + i = k + (i + 1) := by omega
        rw [e] at this
        simp [reachIn, StdVectorFst.Arcs, h1, this]

end Fst

/-! ## The reversal builder -/

namespace ReverseUserInput
open Fst

theorem addStates_eq (is : List Nat) (fst : StdVectorFst) (sts : List Nat) :
    addStates is (fst, sts) =
      (⟨fst.start, fst.states ++ List.replicate is.length ⟨TropicalWeight.Zero, []⟩⟩,
        sts ++ List.range' fst.states.length is.length) := by
  induction is generalizing fst sts with
  | nil => simp [addStates]
  | cons i is ih =>
    simp only [addStates, ih, StdVectorFst.AddState, List.length_cons, List.length_append,
      List.length_singleton, List.replicate_succ, List.range'_succ, List.append_assoc,
      List.singleton_append, List.length_nil, Nat.zero_add]

theorem addArcs_start (input : Str) (sts : List Nat) (is : List Nat) (fst : StdVectorFst) :
    (addArcs input sts is fst).start = fst.start := by
  induction is generalizing fst with
  | nil => rfl
  | cons i is ih => simp [addArcs, ih, StdVectorFst.AddArc]

theorem addArcs_states (input : Str) (sts : List Nat) (n : Nat)
    (hsts : ∀ i, i ≤ n → sts.getD i 0 = i + 1) (k m : Nat) (hkm : k + m ≤ n)
    (fst : StdVectorFst) (j : Nat) :
    (addArcs input sts (List.range' k m) fst).states[j]? =
      if k + 1 ≤ j ∧ j ≤ k + m then
        (fst.states[j]?).map (fun st => { st with arcs := st.arcs ++
          [⟨Int.ofNat (input.getD (j - 1) default).toNat,
            Int.ofNat (input.getD (input.length - 1 - (j - 1)) default).toNat,
            TropicalWeight.One, j + 1⟩] })
      else fst.states[j]? := by
  induction m generalizing k fst with
  | zero =>
    have : ¬ (k + 1 ≤ j ∧ j ≤ k) := by omega
    simp [addArcs, this]
  | succ m ih =>
    rw [List.range'_succ, addArcs, ih (k + 1) (by omega)]
    rw [hsts k (by omega), hsts (k + 1) (by omega)]
    simp only [StdVectorFst.AddArc, List.getElem?_modify]
    by_cases h1 : k + 1 = j
    · subst h1
      have c1 : ¬ (k + 1 + 1 ≤ k + 1 ∧ k + 1 ≤ k + 1 + m) := by omega
      have c2 : (k + 1 ≤ k + 1 ∧ k + 1 ≤ k + (m + 1)) := by omega
      simp only [c1, c2, if_false, if_true, and_self, Nat.add_sub_cancel]
      cases fst.states[k + 1]? <;> simp
    · by_cases h2 : k + 1 + 1 ≤ j ∧ j ≤ k + 1 + m
      · have c2 : (k + 1 ≤ j ∧ j ≤ k + (m + 1)) := by omega
        simp only [h1, h2, c2, if_false, if_true, and_self]
        cases fst.states[j]? <;> simp
      · have c2 : ¬ (k + 1 ≤ j ∧ j ≤ k + (m + 1)) := by omega
        simp only [h1, h2, c2, if_false]
        cases fst.states[j]? <;> simp

theorem revLabels_length (input : Str) : (revLabels input).length = input.length := by
  simp [revLabels]

theorem revLabels_getElem? (input : Str) (i : Nat) (hi : i < input.length) :
    (revLabels input)[i]? =
      some (Int.ofNat (input.getD i default).toNat,
        Int.ofNat (input.getD (input.length - 1 - i) default).toNat) := by
  have h2 : input.length - 1 - i < input.length := by omega
  simp [revLabels, List.getElem?_zip_eq_some, List.getElem?_eq_getElem, hi, h2,
    List.getElem_reverse]

theorem main_eq (input : Str) :
    main input = ⟨some 1, ⟨TropicalWeight.Zero, []⟩ ::
      chainStates 1 TropicalWeight.One (revLabels input)⟩ := by
  have hsts : ∀ i, i ≤ input.length →
      (List.range' 1 (input.length + 1)).getD i 0 = i + 1 := by
    intro i hi
    simp [List.getElem?_range', Nat.lt_succ_of_le hi, Nat.add_comm]
  simp only [main, addStates_eq, StdVectorFst.AddState, StdVectorFst.SetStart,
    StdVectorFst.empty, List.length_range, List.nil_append, List.length_singleton]
  rw [List.range_eq_range']
  have hstart := addArcs_start input (List.range' 1 (input.length + 1))
    (List.range' 0 input.length)
  cases hres : addArcs input (List.range' 1 (input.length + 1)) (List.range' 0 input.length)
    (StdVectorFst.SetFinal ⟨some ((List.range' 1 (input.length + 1)).getD 0 0),
      [⟨TropicalWeight.Zero, []⟩] ++ List.replicate (input.length + 1) ⟨TropicalWeight.Zero, []⟩⟩
      ((List.range' 1 (input.length + 1)).getD input.length 0) TropicalWeight.One) with
  | mk st sts =>
    have h1 := hstart (StdVectorFst.SetFinal ⟨some ((List.range' 1 (input.length + 1)).getD 0 0),
      [⟨TropicalWeight.Zero, []⟩] ++ List.replicate (input.length + 1) ⟨TropicalWeight.Zero, []⟩⟩
      ((List.range' 1 (input.length + 1)).getD input.length 0) TropicalWeight.One)
    rw [hres] at h1
    have h2 := fun j => addArcs_states input (List.range' 1 (input.length + 1)) input.length hsts
      0 input.length (by omega)
      (StdVectorFst.SetFinal ⟨some ((List.range' 1 (input.length + 1)).getD 0 0),
      [⟨TropicalWeight.Zero, []⟩] ++ List.replicate (input.length + 1) ⟨TropicalWeight.Zero, []⟩⟩
      ((List.range' 1 (input.length + 1)).getD input.length 0) TropicalWeight.One) j
    rw [hres] at h2
    simp only [StdVectorFst.SetFinal, hsts 0 (Nat.zero_le _), hsts input.length (Nat.le_refl _)]
      at h1 h2
    subst h1
    congr 1
    apply List.ext_getElem?
    intro j
    rw [h2 j]
    cases j with
    | zero => simp
    | succ j =>
      simp only [List.getElem?_cons_succ, chainStates_getElem?, revLabels_length]
      by_cases c1 : j < input.length
      · have c2 : (0 + 1 ≤ j + 1 ∧ j + 1 ≤ 0 + input.length) := by omega
        have c3 : ¬ (input.length + 1 = j + 1) := by omega
        simp only [c1, c2, if_true, and_self, revLabels_getElem? input j c1, List.getElem?_modify,
          c3, if_false]
        simp [List.getElem?_replicate, Nat.lt_succ_of_lt c1, Nat.add_comm]
      · have c2 : ¬ (0 + 1 ≤ j + 1 ∧ j + 1 ≤ 0 + input.length) := by omega
        simp only [c1, c2, if_false, List.getElem?_modify]
        by_cases c4 : j = input.length
        · subst c4
          simp [List.getElem?_replicate]
        · have c5 : ¬ (j < input.length + 1) := by omega
          have c6 : ¬ (input.length + 1 = j + 1) := by omega
          simp [List.getElem?_replicate, c4, c5, c6]

end ReverseUserInput

namespace ReverseUserInput
open Fst

theorem char_code_roundtrip (c : Char) : Char.ofNat (Int.ofNat c.toNat).toNat = c := by
  simp

theorem main_arcs (input : Str) (s : Nat) (a : StdArc) (ha : a ∈ (main input).Arcs s) :
    a.nextstate = s + 1 := by
  rw [main_eq] at ha
  cases s with
  | zero => simp [StdVectorFst.Arcs] at ha
  | succ s =>
    simp only [StdVectorFst.Arcs, List.getElem?_cons_succ, chainStates_getElem?] at ha
    by_cases c1 : s < (revLabels input).length
    · simp only [c1, if_true] at ha
      cases h : (revLabels input)[s]? with
      | none => simp [h] at ha
      | some l =>
        simp only [h, Option.map_some', List.mem_singleton] at ha
        subst ha
        simp; omega
    · by_cases c2 : s = (revLabels input).length
      · simp [c1, c2] at ha
      · simp [c1, c2] at ha

theorem main_no_return (input : Str) (fuel s : Nat) (hs : 1 ≤ s) :
    reachIn (main input) fuel s 0 = false := by
  induction fuel generalizing s with
  | zero => simp [reachIn]; omega
  | succ fuel ih =>
    rw [reachIn]
    simp only [Bool.or_eq_false_iff, beq_eq_false_iff_ne, ne_eq, List.any_eq_false]
    refine ⟨by omega, ?_⟩
    intro a ha
    rw [main_arcs input s a ha]
    simp [ih (s + 1) (by omega)]

/-- For every input of length `n` the reversal builder makes `n + 2` states:
state 0 is the state created first, has no arc, is not final and cannot be
reached from the start state, which is state 1; the arc for position `i` goes
from state `i + 1` to state `i + 2`; state `n + 1` is final with weight `One`;
the states `1 .. n + 1` are reachable from the start state. -/
theorem reversal_states (s : Str) :
    (main s).NumStates = s.length + 2 ∧
    (main s).start = some 1 ∧
    (main s).accessible 0 = false ∧
    (main s).Arcs 0 = [] ∧
    (∀ i, i < s.length → ∃ a, (main s).Arcs (i + 1) = [a] ∧ a.nextstate = i + 2) ∧
    (main s).Final (s.length + 1) = TropicalWeight.One ∧
    (∀ i, i ≤ s.length → (main s).accessible (i + 1) = true) := by
  refine ⟨?_, ?_, ?_, ?_, ?_, ?_, ?_⟩
  · rw [main_eq]; simp [StdVectorFst.NumStates, chainStates_length, revLabels_length]
  · rw [main_eq]
  · have h := main_no_return s (main s).NumStates 1 (Nat.le_refl 1)
    have hs : (main s).start = some 1 := by rw [main_eq]
    simp [StdVectorFst.accessible, hs, h]
  · rw [main_eq]; simp [StdVectorFst.Arcs]
  · intro i hi
    have h := revLabels_getElem? s i hi
    rw [main_eq]
    simp [StdVectorFst.Arcs, chainStates_getElem?, revLabels_length, hi, h]
    omega
  · rw [main_eq]
    simp [StdVectorFst.Final, chainStates_getElem?, revLabels_length]
  · intro i hi
    have hs : (main s).start = some 1 := by rw [main_eq]
    have hd : (main s).states.drop 1 = chainStates 1 TropicalWeight.One (revLabels s) := by
      rw [main_eq]; simp
    have hn : (main s).NumStates = s.length + 2 := by
      rw [main_eq]; simp [StdVectorFst.NumStates, chainStates_length, revLabels_length]
    have := reachIn_chain (main s) 1 TropicalWeight.One (revLabels s) (main s).NumStates
      (by rw [hn, revLabels_length]; omega) hd i (by rw [revLabels_length]; exact hi)
    have e : 1 + i = i + 1 := by omega
    rw [e] at this
    simp [StdVectorFst.accessible, hs, this]

/-- C7 fails on the code. For the input `ab`, of length 2, the reversal graph
has four states, not three: state 0 has no arc and is not reachable from the
start state, which is state 1; the arc for position 0 goes from state 1 to
state 2 and the arc for position 1 from state 2 to state 3; the final state is
state 3, and state 2 is not final. -/
theorem reversal_states_ab :
    (main "ab".toList).NumStates = 4 ∧
    (main "ab".toList).start = some 1 ∧
    (main "ab".toList).accessible 0 = false ∧
    (main "ab".toList).Arcs 0 = [] ∧
    (main "ab".toList).Arcs 1 = [⟨97, 98, TropicalWeight.One, 2⟩] ∧
    (main "ab".toList).Arcs 2 = [⟨98, 97, TropicalWeight.One, 3⟩] ∧
    (main "ab".toList).Final 3 = TropicalWeight.One ∧
    (main "ab".toList).Final 2 = TropicalWeight.Zero := by
  decide

end ReverseUserInput

/-! ## The acceptor builder -/

namespace Fst

theorem chainStates_snoc (j : Nat) (ls : List (Int × Int)) (l : Int × Int) :
    (chainStates j TropicalWeight.Zero ls ++ [(⟨TropicalWeight.Zero, []⟩ : VectorState)]).modify
        (fun st => { st with arcs := st.arcs ++
          [(⟨l.1, l.2, TropicalWeight.One, j + ls.length + 1⟩ : StdArc)] }) ls.length =
      chainStates j TropicalWeight.Zero (ls ++ [l]) := by
  induction ls generalizing j with
  | nil => simp [chainStates, List.modify, List.modifyHead]
  | cons x xs ih =>
    have e : j + (xs.length + 1) + 1 = j + 1 + xs.length + 1 := by omega
    simp only [chainStates, List.cons_append, List.length_cons, List.modify_succ_cons, e,
      ih (j + 1)]
    rfl

theorem chainStates_setFinal (j : Nat) (ls : List (Int × Int)) (w : TropicalWeight) :
    (chainStates j TropicalWeight.Zero ls).modify (fun st => { st with final := w }) ls.length =
      chainStates j w ls := by
  induction ls generalizing j with
  | nil => simp [chainStates, List.modify, List.modifyHead]
  | cons x xs ih =>
    simp only [chainStates, List.length_cons, List.modify_succ_cons, ih (j + 1)]

end Fst

namespace CaseConverter
open Fst

theorem toInt_of_fits (k : Int) (h1 : -2147483648 ≤ k) (h2 : k < 2147483648) :
    toInt k = k := by
  unfold toInt
  omega

theorem toInt_kNoSymbol : toInt kNoSymbol = kNoSymbol := by decide

theorem StringToFstLoop_supported (syms : SymbolTable) (cs : Str) (hcs : Supported syms cs)
    (hfit : FitsInt syms cs) (st : Option Nat) (ls : List (Int × Int)) :
    StringToFstLoop syms cs ⟨st, chainStates 0 TropicalWeight.Zero ls⟩ ls.length =
      some (⟨st, chainStates 0 TropicalWeight.Zero (ls ++ acceptorLabels syms cs)⟩,
        (ls ++ acceptorLabels syms cs).length) := by
  induction cs generalizing ls with
  | nil => simp [StringToFstLoop, acceptorLabels]
  | cons c cs ih =>
    have hc : syms.Find (token c) ≠ kNoSymbol := hcs c (List.mem_cons_self _ _)
    have hf := hfit c (List.mem_cons_self _ _)
    have hi : toInt (syms.Find (token c)) = syms.Find (token c) :=
      toInt_of_fits _ hf.1 hf.2
    have hrest : Supported syms cs := fun d hd => hcs d (List.mem_cons_of_mem _ hd)
    have hfrest : FitsInt syms cs := fun d hd => hfit d (List.mem_cons_of_mem _ hd)
    have hc' : ¬ (toInt (syms.Find (token c)) = kNoSymbol) := by rw [hi]; exact hc
    have key := chainStates_snoc 0 ls (syms.Find (token c), syms.Find (token c))
    have hlen : (chainStates 0 TropicalWeight.Zero ls).length = ls.length + 1 :=
      chainStates_length _ _ _
    have ih' := ih hrest hfrest (ls ++ [(syms.Find (token c), syms.Find (token c))])
    simp only [List.length_append, List.length_singleton, List.append_assoc,
      List.singleton_append] at ih'
    simp only [StringToFstLoop]
    rw [show (if c = ' ' then "_space_".toList else [c]) = token c from rfl, if_neg hc', hi]
    simp only [StdVectorFst.AddState, StdVectorFst.AddArc, hlen]
    simp only [Nat.zero_add] at key
    rw [key, ih']
    simp [acceptorLabels]

theorem StringToFstLoop_unsupported (syms : SymbolTable) (cs : Str)
    (hcs : ¬ Supported syms cs) (fst : StdVectorFst) (k : Nat) :
    StringToFstLoop syms cs fst k = none := by
  induction cs generalizing fst k with
  | nil => exact absurd (fun c hc => by simp at hc) hcs
  | cons c cs ih =>
    by_cases hc' : toInt (syms.Find (token c)) = kNoSymbol
    · simp only [StringToFstLoop]
      rw [show (if c = ' ' then "_space_".toList else [c]) = token c from rfl, if_pos hc']
    · have hc : syms.Find (token c) ≠ kNoSymbol := by
        intro h
        apply hc'
        rw [h]
        exact toInt_kNoSymbol
      have hrest : ¬ Supported syms cs := by
        intro h
        apply hcs
        intro d hd
        rcases List.mem_cons.1 hd with rfl | hd
        · exact hc
        · exact h d hd
      simp only [StringToFstLoop]
      rw [show (if c = ' ' then "_space_".toList else [c]) = token c from rfl, if_neg hc']
      exact ih hrest _ _

theorem StringToFst_supported (syms : SymbolTable) (s : Str) (hs : Supported syms s)
    (hfit : FitsInt syms s) :
    StringToFst s syms = ⟨some 0, chainStates 0 TropicalWeight.One (acceptorLabels syms s)⟩ := by
  have h := StringToFstLoop_supported syms s hs hfit (some 0) []
  simp only [chainStates, List.length_nil, List.nil_append] at h
  simp only [StringToFst, StdVectorFst.AddState, StdVectorFst.SetStart, StdVectorFst.empty,
    List.nil_append, h, StdVectorFst.SetFinal, chainStates_setFinal]

theorem StringToFst_unsupported (syms : SymbolTable) (s : Str) (hs : ¬ Supported syms s) :
    StringToFst s syms = StdVectorFst.empty := by
  simp only [StringToFst, StringToFstLoop_unsupported syms s hs]

theorem acceptorLabels_length (syms : SymbolTable) (s : Str) :
    (acceptorLabels syms s).length = s.length := by
  simp [acceptorLabels]

/-- C8, as the code has it. For a string `s` of length `n` whose characters
all have a token in the table, with a code that fits the 32-bit `int` of an arc
label, `StringToFst` gives a graph of exactly `n + 1` states with start state
0; state `i < n` has exactly one arc, to state `i + 1`, of weight `One`, its
input and output label both the table code of the token of `s[i]`; state `n`
has no arc and is the only final state, with final weight `One`. -/
theorem StringToFst_shape (syms : SymbolTable) (s : Str) (hs : Supported syms s)
    (hfit : FitsInt syms s) :
    (StringToFst s syms).NumStates = s.length + 1 ∧
    (StringToFst s syms).start = some 0 ∧
    (∀ (i : Nat) (h : i < s.length), (StringToFst s syms).Arcs i =
      [⟨syms.Find (token (s.get ⟨i, h⟩)), syms.Find (token (s.get ⟨i, h⟩)),
        TropicalWeight.One, i + 1⟩]) ∧
    (StringToFst s syms).Arcs s.length = [] ∧
    (StringToFst s syms).Final s.length = TropicalWeight.One ∧
    (∀ i, (StringToFst s syms).Final i ≠ TropicalWeight.Zero ↔ i = s.length) := by
  rw [StringToFst_supported syms s hs hfit]
  refine ⟨?_, rfl, ?_, ?_, ?_, ?_⟩
  · simp [StdVectorFst.NumStates, chainStates_length, acceptorLabels_length]
  · intro i h
    simp [StdVectorFst.Arcs, chainStates_getElem?, acceptorLabels_length, h, acceptorLabels,
      List.getElem?_eq_getElem]
  · simp [StdVectorFst.Arcs, chainStates_getElem?, acceptorLabels_length]
  · simp [StdVectorFst.Final, chainStates_getElem?, acceptorLabels_length]
  · intro i
    simp only [StdVectorFst.Final, chainStates_getElem?, acceptorLabels_length]
    by_cases c1 : i < s.length
    · have c2 : i ≠ s.length := by omega
      simp [c1, c2, acceptorLabels, List.getElem?_eq_getElem]
    · by_cases c2 : i = s.length
      · simp [c2, TropicalWeight.One, TropicalWeight.Zero]
      · simp [c1, c2]

/-- C8 fails as stated for a table whose codes do not fit an `int`. With the
token `a` at code `2^32 - 1` the code stored in `int id` is `-1`, which is
`kNoSymbol`: the string `a` has its token in the table and `StringToFst`
returns the graph without states, not one of two states. With the token `a` at
code `2^32 + 5` the arc is labelled 5, not with the table code. -/
theorem StringToFst_key_beyond_int :
    Supported (SymbolTable.empty.AddSymbolKey "a".toList 4294967295).1 "a".toList ∧
    (StringToFst "a".toList (SymbolTable.empty.AddSymbolKey "a".toList 4294967295).1).NumStates
      = 0 ∧
    Supported (SymbolTable.empty.AddSymbolKey "a".toList 4294967301).1 "a".toList ∧
    (SymbolTable.empty.AddSymbolKey "a".toList 4294967301).1.Find (token 'a') = 4294967301 ∧
    (StringToFst "a".toList (SymbolTable.empty.AddSymbolKey "a".toList 4294967301).1).Arcs 0
      = [⟨5, 5, TropicalWeight.One, 1⟩] := by
  decide

end CaseConverter

/-! ## Shortest path of a linear graph and its decoding -/

namespace Fst

theorem linearPath_nil {g : StdVectorFst} {s : Nat} (h : linearPath g s [] = true) :
    ∃ st, g.states[s]? = some st ∧ st.arcs = [] ∧ st.final ≠ TropicalWeight.Zero := by
  unfold linearPath at h
  cases hs : g.states[s]? with
  | none => simp [hs] at h
  | some st =>
    simp only [hs, Bool.and_eq_true, List.isEmpty_iff, bne_iff_ne, ne_eq] at h
    exact ⟨st, rfl, h.1, h.2⟩

theorem linearPath_cons {g : StdVectorFst} {s : Nat} {a : StdArc} {p : List StdArc}
    (h : linearPath g s (a :: p) = true) :
    ∃ st, g.states[s]? = some st ∧ st.arcs = [a] ∧ st.final = TropicalWeight.Zero ∧
      a.weight ≠ TropicalWeight.Zero ∧ linearPath g a.nextstate p = true := by
  unfold linearPath at h
  cases hs : g.states[s]? with
  | none => simp [hs] at h
  | some st =>
    simp only [hs, Bool.and_eq_true, beq_iff_eq, bne_iff_ne, ne_eq] at h
    exact ⟨st, rfl, h.1.1.1, h.1.1.2, h.1.2, h.2⟩

theorem linearPath_unique {g : StdVectorFst} {s : Nat} {p q : List StdArc}
    (hp : linearPath g s p = true) (hq : linearPath g s q = true) : p = q := by
  induction p generalizing s q with
  | nil =>
    obtain ⟨st, h1, h2, _⟩ := linearPath_nil hp
    cases q with
    | nil => rfl
    | cons b q =>
      obtain ⟨st', h1', h2', _⟩ := linearPath_cons hq
      rw [h1] at h1'
      cases h1'
      rw [h2] at h2'
      cases h2'
  | cons a p ih =>
    obtain ⟨st, h1, h2, _, _, h5⟩ := linearPath_cons hp
    cases q with
    | nil =>
      obtain ⟨st', h1', h2', _⟩ := linearPath_nil hq
      rw [h1] at h1'
      cases h1'
      rw [h2] at h2'
      cases h2'
    | cons b q =>
      obtain ⟨st', h1', h2', _, _, h5'⟩ := linearPath_cons hq
      rw [h1] at h1'
      cases h1'
      rw [h2] at h2'
      cases h2'
      rw [ih h5 h5']

theorem linearPath_suffix {g : StdVectorFst} {s t : Nat} {p : List StdArc}
    (hp : linearPath g s p = true) (ht : t ∈ pathStates s p) :
    ∃ q, linearPath g t q = true ∧ q.length ≤ p.length := by
  induction p generalizing s with
  | nil =>
    have : t = s := by simpa [pathStates] using ht
    subst this
    exact ⟨[], hp, Nat.le_refl _⟩
  | cons a p ih =>
    simp only [pathStates, List.map_cons, List.mem_cons] at ht
    rcases ht with rfl | ht
    · exact ⟨a :: p, hp, Nat.le_refl _⟩
    · obtain ⟨_, _, _, _, _, h5⟩ := linearPath_cons hp
      have ht' : t ∈ pathStates a.nextstate p := by
        simpa [pathStates] using ht
      obtain ⟨q, hq, hl⟩ := ih h5 ht'
      exact ⟨q, hq, by simp; omega⟩

theorem linearPath_nodup {g : StdVectorFst} {s : Nat} {p : List StdArc}
    (hp : linearPath g s p = true) : (pathStates s p).Nodup := by
  induction p generalizing s with
  | nil => simp [pathStates]
  | cons a p ih =>
    obtain ⟨_, _, _, _, _, h5⟩ := linearPath_cons hp
    have hn := ih h5
    have hs : s ∉ pathStates a.nextstate p := by
      intro hmem
      obtain ⟨q, hq, hl⟩ := linearPath_suffix h5 hmem
      have := linearPath_unique hq hp
      subst this
      simp at hl
    have e : pathStates s (a :: p) = s :: pathStates a.nextstate p := by
      simp [pathStates]
    rw [e]
    exact List.nodup_cons.2 ⟨hs, hn⟩

theorem linearPath_states_lt {g : StdVectorFst} {s : Nat} {p : List StdArc}
    (hp : linearPath g s p = true) : ∀ t ∈ pathStates s p, t < g.NumStates := by
  induction p generalizing s with
  | nil =>
    intro t ht
    have : t = s := by simpa [pathStates] using ht
    subst this
    obtain ⟨st, h1, _⟩ := linearPath_nil hp
    exact (List.getElem?_eq_some_iff.1 h1).1
  | cons a p ih =>
    intro t ht
    obtain ⟨st, h1, _, _, _, h5⟩ := linearPath_cons hp
    simp only [pathStates, List.map_cons, List.mem_cons] at ht
    rcases ht with rfl | ht
    · exact (List.getElem?_eq_some_iff.1 h1).1
    · exact ih h5 t (by simpa [pathStates] using ht)

theorem linearPath_length_lt {g : StdVectorFst} {s : Nat} {p : List StdArc}
    (hp : linearPath g s p = true) : p.length < g.NumStates := by
  have hsub : pathStates s p ⊆ List.range g.NumStates := by
    intro t ht
    exact List.mem_range.2 (linearPath_states_lt hp t ht)
  have := (List.subperm_of_subset (linearPath_nodup hp) hsub).length_le
  simp [pathStates] at this
  omega

theorem bestPath_linear {g : StdVectorFst} {s : Nat} {p : List StdArc}
    (hp : linearPath g s p = true) (fuel : Nat) (hfuel : p.length ≤ fuel) :
    ∃ w, bestPath g fuel s = some (w, p) := by
  induction p generalizing s fuel with
  | nil =>
    obtain ⟨st, h1, h2, h3⟩ := linearPath_nil hp
    cases hf : st.final with
    | none => exact absurd hf h3
    | some w =>
      refine ⟨w, ?_⟩
      cases fuel with
      | zero => simp [bestPath, StdVectorFst.Final, h1, hf]
      | succ fuel => simp [bestPath, StdVectorFst.Final, StdVectorFst.Arcs, h1, h2, hf]
  | cons a p ih =>
    obtain ⟨st, h1, h2, h3, h4, h5⟩ := linearPath_cons hp
    cases fuel with
    | zero => simp at hfuel
    | succ fuel =>
      obtain ⟨w, hw⟩ := ih h5 fuel (by simpa using hfuel)
      cases ha : a.weight with
      | none => exact absurd ha h4
      | some wa =>
        refine ⟨wa + w, ?_⟩
        simp only [TropicalWeight.Zero] at h3
        simp [bestPath, StdVectorFst.Final, StdVectorFst.Arcs, h1, h2, h3, ha, hw, betterPath]

theorem backtraceStates_getElem? (q : List StdArc) (k i : Nat) :
    (backtraceStates q k)[i]? =
      (q[i]?).map (fun a =>
        (⟨TropicalWeight.Zero, [{ a with nextstate := k + i }]⟩ : VectorState)) := by
  induction q generalizing k i with
  | nil => simp [backtraceStates]
  | cons a q ih =>
    cases i with
    | zero => simp [backtraceStates]
    | succ i =>
      simp only [backtraceStates, List.getElem?_cons_succ, ih]
      have e : k + 1 + i = k + (i + 1) := by omega
      rw [e]

theorem backtraceStates_length (q : List StdArc) (k : Nat) :
    (backtraceStates q k).length = q.length := by
  induction q generalizing k with
  | nil => rfl
  | cons a q ih => simp [backtraceStates, ih]

theorem ShortestPath_linear {g : StdVectorFst} {p : List StdArc} (h : IsLinear g p) :
    ∃ fw, ShortestPath g =
      ⟨some p.length, ⟨fw, []⟩ :: backtraceStates p.reverse 0⟩ := by
  obtain ⟨s, hs, hp⟩ := h
  obtain ⟨w, hw⟩ := bestPath_linear hp g.NumStates (Nat.le_of_lt (linearPath_length_lt hp))
  exact ⟨g.Final (pathEnd s p), by simp [ShortestPath, hs, hw]⟩

end Fst

namespace CaseConverter
open Fst

theorem FstToStringLoop_backtrace (syms : SymbolTable) (st : Option Nat) (fw : TropicalWeight)
    (q : List StdArc) (j : Nat) (hj : j ≤ q.length) (fuel : Nat) (hfuel : j ≤ fuel)
    (result : Str) :
    FstToStringLoop ⟨st, ⟨fw, []⟩ :: backtraceStates q 0⟩ syms fuel j result =
      some (result ++ ((q.take j).reverse).flatMap (decodeArc syms)) := by
  induction j generalizing fuel result with
  | zero =>
    cases fuel <;> simp [FstToStringLoop]
  | succ j ih =>
    cases fuel with
    | zero => simp at hfuel
    | succ fuel =>
      have hlt : j < q.length := hj
      have hq : q[j]? = some q[j] := List.getElem?_eq_getElem hlt
      have ih' := ih (Nat.le_of_lt hlt) fuel (by simpa using hfuel)
      simp only [FstToStringLoop, List.getElem?_cons_succ, backtraceStates_getElem?, hq,
        Option.map_some', Nat.zero_add, ih']
      rw [List.take_succ, hq]
      simp only [Option.toList, List.reverse_append, List.reverse_cons, List.reverse_nil,
        List.nil_append, List.singleton_append, List.flatMap_cons]
      unfold decodeArc
      by_cases c : syms.FindSymbol q[j].olabel = [] ∨
          syms.FindSymbol q[j].olabel = "<eps>".toList
      · have c' : ¬ (syms.FindSymbol q[j].olabel ≠ [] ∧
            syms.FindSymbol q[j].olabel ≠ "<eps>".toList) := by tauto
        rw [if_pos c, if_neg c']
        simp
      · have c' : (syms.FindSymbol q[j].olabel ≠ [] ∧
            syms.FindSymbol q[j].olabel ≠ "<eps>".toList) := by tauto
        rw [if_neg c, if_pos c']
        simp

/-- Decoding a linear graph gives the tokens of its path. -/
theorem FstToString_of_linear (g : StdVectorFst) (syms : SymbolTable) (path : List StdArc)
    (h : IsLinear g path) :
    FstToString g syms = some (path.flatMap (decodeArc syms)) := by
  obtain ⟨fw, hsp⟩ := ShortestPath_linear h
  obtain ⟨s, hs, hp⟩ := h
  have hn : g.NumStates ≠ 0 := by
    have := linearPath_length_lt hp
    omega
  have key := FstToStringLoop_backtrace syms (some path.length) fw path.reverse path.length
    (by simp) (path.length + 1) (by omega) []
  rw [FstToString, if_neg hn]
  simp only [hsp, StdVectorFst.NumStates, List.length_cons,
    backtraceStates_length, List.length_reverse]
  rw [key]
  simp [List.take_of_length_le]

/-- C10, as the code has it. For every graph that from its start state is a
single path to a final state with no outgoing arc, no earlier state of the path
being final and no arc of the path having weight `Zero` (so the graph has at
least one state), and for every symbol table, `FstToString` returns the
concatenation, in path order, of the tokens the table resolves the output
labels of the arcs to, leaving out each arc whose token is empty or is the
epsilon token `<eps>`. -/
theorem FstToString_linear (g : StdVectorFst) (syms : SymbolTable) (path : List StdArc)
    (h : IsLinear g path) :
    FstToString g syms = some (path.flatMap (decodeArc syms)) := by
  obtain ⟨fw, hsp⟩ := ShortestPath_linear h
  obtain ⟨s, hs, hp⟩ := h
  have hn : g.NumStates ≠ 0 := by
    have := linearPath_length_lt hp
    omega
  have key := FstToStringLoop_backtrace syms (some path.length) fw path.reverse path.length
    (by simp) (path.length + 1) (by omega) []
  rw [FstToString, if_neg hn]
  simp only [hsp, StdVectorFst.NumStates, List.length_cons,
    backtraceStates_length, List.length_reverse]
  rw [key]
  simp [List.take_of_length_le]

set_option maxRecDepth 100000 in
/-- C10 fails as stated: a graph can be a single path from its start state to
a state with no outgoing arc and not decode to the tokens of the path. With
the output table of `main` the one arc of each of these three graphs resolves
to `A`. When the end state is not final, `ShortestPath` gives a graph without
states and the walk of `FstToString` starts at no state; when the start state
is final as well, the shortest path stops there and the result is the empty
string; when the arc has weight `Zero`, there is again no path. -/
theorem FstToString_bare_path :
    (barePath ⟨some 0, [⟨TropicalWeight.Zero, [⟨1, 1, TropicalWeight.One, 1⟩]⟩,
        ⟨TropicalWeight.Zero, []⟩]⟩ 0 [⟨1, 1, TropicalWeight.One, 1⟩] = true ∧
      FstToString ⟨some 0, [⟨TropicalWeight.Zero, [⟨1, 1, TropicalWeight.One, 1⟩]⟩,
        ⟨TropicalWeight.Zero, []⟩]⟩ buildRules.osyms = none) ∧
    (barePath ⟨some 0, [⟨TropicalWeight.One, [⟨1, 1, TropicalWeight.One, 1⟩]⟩,
        ⟨TropicalWeight.One, []⟩]⟩ 0 [⟨1, 1, TropicalWeight.One, 1⟩] = true ∧
      FstToString ⟨some 0, [⟨TropicalWeight.One, [⟨1, 1, TropicalWeight.One, 1⟩]⟩,
        ⟨TropicalWeight.One, []⟩]⟩ buildRules.osyms = some []) ∧
    (barePath ⟨some 0, [⟨TropicalWeight.Zero, [⟨1, 1, TropicalWeight.Zero, 1⟩]⟩,
        ⟨TropicalWeight.One, []⟩]⟩ 0 [⟨1, 1, TropicalWeight.Zero, 1⟩] = true ∧
      FstToString ⟨some 0, [⟨TropicalWeight.Zero, [⟨1, 1, TropicalWeight.Zero, 1⟩]⟩,
        ⟨TropicalWeight.One, []⟩]⟩ buildRules.osyms = none) ∧
    [(⟨1, 1, TropicalWeight.One, 1⟩ : StdArc)].flatMap (decodeArc buildRules.osyms) = ['A'] ∧
    [(⟨1, 1, TropicalWeight.Zero, 1⟩ : StdArc)].flatMap (decodeArc buildRules.osyms) = ['A'] := by
  decide

end CaseConverter

/-! ## Trimming and composing chains -/

namespace Fst

theorem chainStates_drop (k : Nat) (fin : TropicalWeight) (ls : List (Int × Int)) (i : Nat)
    (hi : i ≤ ls.length) :
    (chainStates k fin ls).drop i = chainStates (k + i) fin (ls.drop i) := by
  induction ls generalizing k i with
  | nil =>
    have : i = 0 := by simpa using hi
    subst this
    simp
  | cons l ls ih =>
    cases i with
    | zero => simp
    | succ i =>
      have e : k + (i + 1) = k + 1 + i := by omega
      simp only [chainStates, List.drop_succ_cons, e]
      exact ih (k + 1) i (by simpa using hi)

theorem coreachIn_chain (g : StdVectorFst) (k : Nat) (fin : TropicalWeight)
    (ls : List (Int × Int)) (hfin : fin ≠ TropicalWeight.Zero) (fuel : Nat)
    (hfuel : ls.length ≤ fuel) (h : g.states.drop k = chainStates k fin ls) :
    coreachIn g fuel k = true := by
  induction ls generalizing k fuel with
  | nil =>
    obtain ⟨h1, _⟩ := drop_eq_cons_getElem? h
    cases fuel <;> simp [coreachIn, StdVectorFst.Final, h1, hfin]
  | cons l ls ih =>
    obtain ⟨h1, h2⟩ := drop_eq_cons_getElem? h
    cases fuel with
    | zero => simp at hfuel
    | succ fuel =>
      have := ih (k + 1) fuel (by simpa using hfuel) h2
      simp [coreachIn, StdVectorFst.Arcs, h1, this]

theorem chain_accessible (fin : TropicalWeight) (ls : List (Int × Int)) (i : Nat)
    (hi : i ≤ ls.length) :
    StdVectorFst.accessible ⟨some 0, chainStates 0 fin ls⟩ i = true := by
  have := reachIn_chain ⟨some 0, chainStates 0 fin ls⟩ 0 fin ls (ls.length + 1)
    (by omega) (by simp) i hi
  simpa [StdVectorFst.accessible, StdVectorFst.NumStates, chainStates_length] using this

theorem chain_coaccessible (fin : TropicalWeight) (hfin : fin ≠ TropicalWeight.Zero)
    (ls : List (Int × Int)) (i : Nat) (hi : i ≤ ls.length) :
    StdVectorFst.coaccessible ⟨some 0, chainStates 0 fin ls⟩ i = true := by
  have hd := chainStates_drop 0 fin ls i hi
  rw [Nat.zero_add] at hd
  have := coreachIn_chain ⟨some 0, chainStates 0 fin ls⟩ i fin (ls.drop i) hfin
    (ls.length + 1) (by simp; omega) hd
  simpa [StdVectorFst.coaccessible, StdVectorFst.NumStates, chainStates_length] using this

theorem chain_arcs_next (k : Nat) (fin : TropicalWeight) (ls : List (Int × Int)) (s : Nat)
    (a : StdArc) (ha : a ∈ StdVectorFst.Arcs ⟨some 0, chainStates k fin ls⟩ s) :
    s < ls.length ∧ a.nextstate = k + s + 1 := by
  simp only [StdVectorFst.Arcs, chainStates_getElem?] at ha
  by_cases c1 : s < ls.length
  · refine ⟨c1, ?_⟩
    simp only [c1, if_true, List.getElem?_eq_getElem c1, Option.map_some',
      List.mem_singleton] at ha
    rw [ha]
  · by_cases c2 : s = ls.length
    · simp [c1, c2] at ha
    · simp [c1, c2] at ha

theorem Connect_eq_self (g : StdVectorFst) (s0 : Nat) (hstart : g.start = some s0)
    (hs0 : s0 < g.NumStates)
    (hkeep : ∀ s, s < g.NumStates → (g.accessible s && g.coaccessible s) = true)
    (harcs : ∀ s a, a ∈ g.Arcs s → a.nextstate < g.NumStates) : Connect g = g := by
  have hid : ∀ s, s ≤ g.NumStates →
      ((List.range s).filter (fun s => g.accessible s && g.coaccessible s)).length = s := by
    intro s hs
    have : (List.range s).filter (fun s => g.accessible s && g.coaccessible s) =
        List.range s := by
      rw [List.filter_eq_self]
      intro t ht
      exact hkeep t (Nat.lt_of_lt_of_le (List.mem_range.1 ht) hs)
    rw [this, List.length_range]
  have hall : (List.range g.NumStates).filter (fun s => g.accessible s && g.coaccessible s) =
      List.range g.NumStates := by
    rw [List.filter_eq_self]
    intro t ht
    exact hkeep t (List.mem_range.1 ht)
  cases g with
  | mk st sts =>
    simp only at hstart
    subst hstart
    simp only [Connect, hall, hkeep s0 hs0, if_true, hid s0 (Nat.le_of_lt hs0)]
    congr 1
    apply List.ext_getElem?
    intro i
    simp only [List.getElem?_map, List.getElem?_range']
    by_cases hi : i < sts.length
    · have hi' : i < StdVectorFst.NumStates ⟨some s0, sts⟩ := hi
      have hget : sts[i]? = some sts[i] := List.getElem?_eq_getElem hi
      have hA : StdVectorFst.Arcs ⟨some s0, sts⟩ i = sts[i].arcs := by
        simp [StdVectorFst.Arcs, hget]
      have hF : StdVectorFst.Final ⟨some s0, sts⟩ i = sts[i].final := by
        simp [StdVectorFst.Final, hget]
      have hfil : (sts[i].arcs).filter (fun a =>
          StdVectorFst.accessible ⟨some s0, sts⟩ a.nextstate &&
            StdVectorFst.coaccessible ⟨some s0, sts⟩ a.nextstate) = sts[i].arcs := by
        rw [List.filter_eq_self]
        intro a ha
        exact hkeep _ (harcs i a (by rw [hA]; exact ha))
      have hmap : (sts[i].arcs).map (fun a => ({ a with nextstate :=
          ((List.range a.nextstate).filter (fun s =>
            StdVectorFst.accessible ⟨some s0, sts⟩ s &&
              StdVectorFst.coaccessible ⟨some s0, sts⟩ s)).length } : StdArc)) = sts[i].arcs := by
        conv => rhs; rw [← List.map_id sts[i].arcs]
        apply List.map_congr_left
        intro a ha
        rw [hid a.nextstate (Nat.le_of_lt (harcs i a (by rw [hA]; exact ha)))]
        rfl
      rw [List.getElem?_range hi']
      simp only [Option.map_some', hA, hF, hfil, hmap, hget]
    · have hi' : ¬ i < StdVectorFst.NumStates ⟨some s0, sts⟩ := hi
      have h1 : (List.range (StdVectorFst.NumStates ⟨some s0, sts⟩))[i]? = none := by
        rw [List.getElem?_eq_none_iff]; simp; exact Nat.le_of_not_lt hi'
      have h2 : sts[i]? = none := by
        rw [List.getElem?_eq_none_iff]; exact Nat.le_of_not_lt hi
      rw [h1, h2]
      rfl

theorem Connect_chain (fin : TropicalWeight) (hfin : fin ≠ TropicalWeight.Zero)
    (ls : List (Int × Int)) :
    Connect ⟨some 0, chainStates 0 fin ls⟩ = ⟨some 0, chainStates 0 fin ls⟩ := by
  apply Connect_eq_self _ 0 rfl
  · simp [StdVectorFst.NumStates, chainStates_length]
  · intro s hs
    have hs' : s ≤ ls.length := by
      simp [StdVectorFst.NumStates, chainStates_length] at hs
      omega
    rw [chain_accessible fin ls s hs', chain_coaccessible fin hfin ls s hs']
    rfl
  · intro s a ha
    obtain ⟨h1, h2⟩ := chain_arcs_next 0 fin ls s a ha
    simp [StdVectorFst.NumStates, chainStates_length]
    omega

end Fst

namespace Fst

theorem chainTable_succ (k : Nat) : chainTable (k + 1) = chainTable k ++ [⟨k + 1, 0, 0⟩] := by
  simp [chainTable, List.range_succ]

theorem chainTable_length (k : Nat) : (chainTable k).length = k + 1 := by
  simp [chainTable]

theorem chainTable_getElem? (k i : Nat) (hi : i ≤ k) : (chainTable k)[i]? = some ⟨i, 0, 0⟩ := by
  simp [chainTable, List.getElem?_range (Nat.lt_succ_of_le hi)]

theorem chainTable_getElem?_none (k : Nat) : (chainTable k)[k + 1]? = none := by
  rw [List.getElem?_eq_none_iff, chainTable_length]

theorem findState_chainTable (k : Nat) :
    findState (chainTable k) ⟨k + 1, 0, 0⟩ = (chainTable (k + 1), k + 1) := by
  have hn : (⟨k + 1, 0, 0⟩ : ComposeTuple) ∉ chainTable k := by
    simp [chainTable]
  have hi : List.indexOf (⟨k + 1, 0, 0⟩ : ComposeTuple) (chainTable k) = (chainTable k).length :=
    List.indexOf_eq_length.2 hn
  simp [findState, hi, chainTable_succ, chainTable_length]

theorem composeArcs_chain_lt (B : StdVectorFst) (out : Int → Int) (ls : List (Int × Int))
    (hB : Answers B out ls) (k : Nat) (hk : k < ls.length) :
    composeArcs ⟨some 0, chainStates 0 TropicalWeight.One ls⟩ B ⟨k, 0, 0⟩ =
      [(⟨ls[k].1, out ls[k].2, TropicalWeight.One, 0⟩, ⟨k + 1, 0, 0⟩)] := by
  obtain ⟨_, _, h0, hl⟩ := hB
  obtain ⟨hne, hf⟩ := hl ls[k] (List.getElem_mem _)
  have hA : StdVectorFst.Arcs ⟨some 0, chainStates 0 TropicalWeight.One ls⟩ k =
      [⟨ls[k].1, ls[k].2, TropicalWeight.One, k + 1⟩] := by
    simp [StdVectorFst.Arcs, chainStates_getElem?, hk, List.getElem?_eq_getElem]
  have hne' : (ls[k].2 == 0) = false := by simpa using hne
  simp only [composeArcs, hA, h0, hf, List.filter_cons, hne', List.filter_nil, List.length_nil,
    List.length_cons, List.map_nil, List.flatMap_cons, List.flatMap_nil, List.map_cons,
    List.append_nil, List.nil_append]
  simp [Times, TropicalWeight.One]

theorem composeArcs_chain_end (B : StdVectorFst) (out : Int → Int) (ls : List (Int × Int))
    (hB : Answers B out ls) :
    composeArcs ⟨some 0, chainStates 0 TropicalWeight.One ls⟩ B ⟨ls.length, 0, 0⟩ = [] := by
  obtain ⟨_, _, h0, _⟩ := hB
  have hA : StdVectorFst.Arcs ⟨some 0, chainStates 0 TropicalWeight.One ls⟩ ls.length = [] := by
    simp [StdVectorFst.Arcs, chainStates_getElem?]
  simp [composeArcs, hA, h0]

theorem composeLoop_done (A B : StdVectorFst) (fuel k : Nat) (states : List VectorState) :
    composeLoop A B fuel (k + 1) (chainTable k) states = states := by
  cases fuel with
  | zero => rfl
  | succ fuel => simp [composeLoop, chainTable_getElem?_none]

theorem composeLoop_chain (B : StdVectorFst) (out : Int → Int) (ls : List (Int × Int))
    (hB : Answers B out ls) (fuel k : Nat) (hk : k ≤ ls.length)
    (hfuel : ls.length + 2 ≤ fuel + k) :
    composeLoop ⟨some 0, chainStates 0 TropicalWeight.One ls⟩ B fuel k (chainTable k)
        ((chainStates 0 TropicalWeight.One (ls.map (fun l => (l.1, out l.2)))).take k) =
      chainStates 0 TropicalWeight.One (ls.map (fun l => (l.1, out l.2))) := by
  induction fuel generalizing k with
  | zero => omega
  | succ fuel ih =>
    have hBf : B.Final 0 = TropicalWeight.One := hB.2.1
    rw [composeLoop, chainTable_getElem? k k (Nat.le_refl k)]
    simp only []
    by_cases hlt : k < ls.length
    · have hAf : StdVectorFst.Final ⟨some 0, chainStates 0 TropicalWeight.One ls⟩ k =
          TropicalWeight.Zero := by
        simp [StdVectorFst.Final, chainStates_getElem?, hlt, List.getElem?_eq_getElem]
      have hR : (chainStates 0 TropicalWeight.One (ls.map (fun l => (l.1, out l.2))))[k]? =
          some ⟨TropicalWeight.Zero, [⟨ls[k].1, out ls[k].2, TropicalWeight.One, k + 1⟩]⟩ := by
        simp [chainStates_getElem?, hlt, List.getElem?_eq_getElem]
      rw [composeArcs_chain_lt B out ls hB k hlt]
      simp only [expandArcs, findState_chainTable, List.nil_append, hAf, hBf]
      have := ih (k + 1) hlt (by omega)
      rw [List.take_succ, hR] at this
      simpa [Times, TropicalWeight.Zero, TropicalWeight.One] using this
    · have hkn : k = ls.length := by omega
      subst hkn
      have hAf : StdVectorFst.Final ⟨some 0, chainStates 0 TropicalWeight.One ls⟩ ls.length =
          TropicalWeight.One := by
        simp [StdVectorFst.Final, chainStates_getElem?]
      have hR : (chainStates 0 TropicalWeight.One (ls.map (fun l => (l.1, out l.2))))[ls.length]? =
          some ⟨TropicalWeight.One, []⟩ := by
        simp [chainStates_getElem?]
      rw [composeArcs_chain_end B out ls hB]
      simp only [expandArcs, hAf, hBf, composeLoop_done]
      have hT : Times TropicalWeight.One TropicalWeight.One = TropicalWeight.One := rfl
      rw [hT]
      have htake : (chainStates 0 TropicalWeight.One (ls.map (fun l => (l.1, out l.2)))).take
          (ls.length + 1) = chainStates 0 TropicalWeight.One (ls.map (fun l => (l.1, out l.2))) := by
        apply List.take_of_length_le
        simp [chainStates_length]
      rw [List.take_succ, hR] at htake
      exact htake

/-- The composition of a chain with a one-state graph that answers all its
labels is the chain with the output labels rewritten. -/
theorem Compose_chain (B : StdVectorFst) (out : Int → Int) (ls : List (Int × Int))
    (hB : Answers B out ls) :
    Compose ⟨some 0, chainStates 0 TropicalWeight.One ls⟩ B =
      ⟨some 0, chainStates 0 TropicalWeight.One (ls.map (fun l => (l.1, out l.2)))⟩ := by
  have hs : B.start = some 0 := hB.1
  have hloop := composeLoop_chain B out ls hB
    (2 * (StdVectorFst.NumStates ⟨some 0, chainStates 0 TropicalWeight.One ls⟩ + 1) *
      (B.NumStates + 1)) 0 (Nat.zero_le _)
    (by
      simp only [StdVectorFst.NumStates, chainStates_length]
      have : 2 * (ls.length + 1 + 1) * 1 ≤ 2 * (ls.length + 1 + 1) * (B.states.length + 1) :=
        Nat.mul_le_mul_left _ (by omega)
      omega)
  have ht : chainTable 0 = [⟨0, 0, 0⟩] := rfl
  simp only [List.take_zero, ht] at hloop
  simp only [Compose, hs, hloop]
  exact Connect_chain TropicalWeight.One (by simp [TropicalWeight.One, TropicalWeight.Zero]) _

end Fst

/-! ## The tables and the converter graph of `main` -/

namespace CaseConverter
open Fst

theorem mem_alphabet_of_isLower (c : Char) (h : IsLower c) : c ∈ alphabet := by
  have e : c = Char.ofNat c.toNat := (Char.ofNat_toNat c).symm
  obtain ⟨h1, h2⟩ := h
  generalize c.toNat = n at e h1 h2
  subst e
  have h1' : 97 ≤ n := h1
  have h2' : n ≤ 122 := h2
  clear h1 h2
  interval_cases n <;> decide

theorem mem_alphabet_of_isDigit (c : Char) (h : IsDigit c) : c ∈ alphabet := by
  have e : c = Char.ofNat c.toNat := (Char.ofNat_toNat c).symm
  obtain ⟨h1, h2⟩ := h
  generalize c.toNat = n at e h1 h2
  subst e
  have h1' : 48 ≤ n := h1
  have h2' : n ≤ 57 := h2
  clear h1 h2
  interval_cases n <;> decide

theorem mem_alphabet_iff (c : Char) : c ∈ alphabet ↔ IsLower c ∨ IsDigit c ∨ c = ' ' := by
  constructor
  · intro h
    have : ∀ d ∈ alphabet, IsLower d ∨ IsDigit d ∨ d = ' ' := by decide
    exact this c h
  · rintro (h | h | h)
    · exact mem_alphabet_of_isLower c h
    · exact mem_alphabet_of_isDigit c h
    · subst h; decide

set_option maxRecDepth 100000 in
theorem converter_base :
    buildRules.converter_fst.start = some 0 ∧
    buildRules.converter_fst.Final 0 = TropicalWeight.One ∧
    (buildRules.converter_fst.Arcs 0).filter (fun a => a.ilabel == 0) = [] := by
  decide

set_option maxRecDepth 100000 in
theorem converter_answers_alphabet :
    ∀ c ∈ alphabet, buildRules.isyms.Find (token c) ≠ kNoSymbol ∧
      (buildRules.isyms.Find (token c) ≠ 0 ∧
      (buildRules.converter_fst.Arcs 0).filter
          (fun a => a.ilabel == buildRules.isyms.Find (token c)) =
        [⟨buildRules.isyms.Find (token c), id (buildRules.isyms.Find (token c)),
          TropicalWeight.One, 0⟩]) ∧
      (buildRules.osyms.FindSymbol (id (buildRules.isyms.Find (token c))) = rendering c ∧
      rendering c ≠ [] ∧ rendering c ≠ "<eps>".toList) := by
  decide

set_option maxRecDepth 100000 in
theorem isyms_single_characters :
    ∀ e ∈ buildRules.isyms.symbols, e.1.length = 1 → ∀ x ∈ e.1, x ∈ alphabet ∧ x ≠ ' ' := by
  decide

theorem isyms_find_unknown (c : Char) (hc : c ∉ alphabet) :
    buildRules.isyms.Find (token c) = kNoSymbol := by
  have hsp : c ≠ ' ' := by
    intro h
    apply hc
    subst h
    decide
  have ht : token c = [c] := by simp [token, hsp]
  have hnone : buildRules.isyms.symbols.find? (fun e => e.1 == [c]) = none := by
    rw [List.find?_eq_none]
    intro e he hp
    have he1 : e.1 = [c] := by simpa using hp
    have := isyms_single_characters e he (by rw [he1]; rfl) c (by rw [he1]; simp)
    exact hc this.1
  rw [ht, SymbolTable.Find, hnone]

set_option maxRecDepth 100000 in
theorem isyms_codes_fit :
    ∀ c ∈ alphabet, -2147483648 ≤ buildRules.isyms.Find (token c) ∧
      buildRules.isyms.Find (token c) < 2147483648 := by
  decide

theorem fits_accepted (s : Str) (hs : Accepted s) : FitsInt buildRules.isyms s :=
  fun c hc => isyms_codes_fit c ((mem_alphabet_iff c).2 (hs c hc))

theorem supported_iff_accepted (s : Str) : Supported buildRules.isyms s ↔ Accepted s := by
  constructor
  · intro h c hc
    by_contra hn
    exact h c hc (isyms_find_unknown c (fun hm => hn ((mem_alphabet_iff c).1 hm)))
  · intro h c hc
    exact (converter_answers_alphabet c ((mem_alphabet_iff c).2 (h c hc))).1

theorem answers_of_tokens (isyms : SymbolTable) (B : StdVectorFst) (out : Int → Int) (s : Str)
    (h1 : B.start = some 0) (h2 : B.Final 0 = TropicalWeight.One)
    (h3 : (B.Arcs 0).filter (fun a => a.ilabel == 0) = [])
    (h4 : ∀ c ∈ s, isyms.Find (token c) ≠ 0 ∧
      (B.Arcs 0).filter (fun a => a.ilabel == isyms.Find (token c)) =
        [⟨isyms.Find (token c), out (isyms.Find (token c)), TropicalWeight.One, 0⟩]) :
    Answers B out (acceptorLabels isyms s) := by
  refine ⟨h1, h2, h3, ?_⟩
  intro l hl
  simp only [acceptorLabels, List.mem_map] at hl
  obtain ⟨c, hc, rfl⟩ := hl
  exact h4 c hc

theorem chainArcs_flatMap (k : Nat) (ls : List (Int × Int)) (syms : SymbolTable) :
    (chainArcs k ls).flatMap (decodeArc syms) =
      ls.flatMap (fun l => decodeArc syms ⟨l.1, l.2, TropicalWeight.One, 0⟩) := by
  induction ls generalizing k with
  | nil => rfl
  | cons l ls ih =>
    simp only [chainArcs, List.flatMap_cons, ih (k + 1)]
    rfl

/-- The composition of the acceptor of a supported string with a one-state
graph that answers its labels: the acceptor chain with rewritten output labels. -/
theorem Compose_acceptor (isyms : SymbolTable) (B : StdVectorFst) (out : Int → Int) (s : Str)
    (hsup : Supported isyms s) (hfit : FitsInt isyms s)
    (hB : Answers B out (acceptorLabels isyms s)) :
    Compose (StringToFst s isyms) B =
      ⟨some 0, chainStates 0 TropicalWeight.One
        ((acceptorLabels isyms s).map (fun l => (l.1, out l.2)))⟩ := by
  rw [StringToFst_supported _ _ hsup hfit, Compose_chain _ out _ hB]

/-- Decoding that composition gives the tokens of the rewritten labels. -/
theorem FstToString_Compose_acceptor (isyms osyms : SymbolTable) (B : StdVectorFst)
    (out : Int → Int) (s : Str) (render : Char → Str)
    (hsup : Supported isyms s) (hfit : FitsInt isyms s)
    (hB : Answers B out (acceptorLabels isyms s))
    (hr : ∀ c ∈ s, osyms.FindSymbol (out (isyms.Find (token c))) = render c ∧
      render c ≠ [] ∧ render c ≠ "<eps>".toList) :
    FstToString (Compose (StringToFst s isyms) B) osyms = some (s.flatMap render) := by
  rw [Compose_acceptor isyms B out s hsup hfit hB]
  have hlin : IsLinear ⟨some 0, chainStates 0 TropicalWeight.One
      ((acceptorLabels isyms s).map (fun l => (l.1, out l.2)))⟩
      (chainArcs 0 ((acceptorLabels isyms s).map (fun l => (l.1, out l.2)))) :=
    ⟨0, rfl, linearPath_chain _ 0 TropicalWeight.One _
      (by simp [TropicalWeight.One, TropicalWeight.Zero]) (by simp)⟩
  rw [FstToString_of_linear _ _ _ hlin, chainArcs_flatMap]
  congr 1
  simp only [acceptorLabels, List.flatMap_map, List.map_map]
  apply List.flatMap_congr
  intro c hc
  obtain ⟨h4, h5, h6⟩ := hr c hc
  simp only [decodeArc, Function.comp, h4]
  rw [if_neg (by tauto)]

theorem converter_answers (s : Str) (hs : Accepted s) :
    Answers buildRules.converter_fst id (acceptorLabels buildRules.isyms s) :=
  answers_of_tokens buildRules.isyms buildRules.converter_fst id s converter_base.1
    converter_base.2.1 converter_base.2.2
    (fun c hc => (converter_answers_alphabet c ((mem_alphabet_iff c).2 (hs c hc))).2.1)

/-- The graph `main` decodes for an accepted line: the acceptor chain, its
labels unchanged by the composition. -/
theorem composed_accepted (s : Str) (hs : Accepted s) :
    Compose (StringToFst s buildRules.isyms) buildRules.converter_fst =
      ⟨some 0, chainStates 0 TropicalWeight.One
        ((acceptorLabels buildRules.isyms s).map (fun l => (l.1, id l.2)))⟩ :=
  Compose_acceptor buildRules.isyms buildRules.converter_fst id s
    ((supported_iff_accepted s).2 hs) (fits_accepted s hs) (converter_answers s hs)

/-- The string `main` decodes for an accepted line, before the cleanup. -/
theorem decoded_accepted (s : Str) (hs : Accepted s) :
    FstToString (Compose (StringToFst s buildRules.isyms) buildRules.converter_fst)
      buildRules.osyms = some (s.flatMap rendering) :=
  FstToString_Compose_acceptor buildRules.isyms buildRules.osyms buildRules.converter_fst id s
    rendering ((supported_iff_accepted s).2 hs) (fits_accepted s hs) (converter_answers s hs)
    (fun c hc => (converter_answers_alphabet c ((mem_alphabet_iff c).2 (hs c hc))).2.2)

theorem NumStates_supported (isyms : SymbolTable) (s : Str) (hsup : Supported isyms s)
    (hfit : FitsInt isyms s) :
    (StringToFst s isyms).NumStates ≠ 0 := by
  rw [StringToFst_supported _ _ hsup hfit]
  simp [StdVectorFst.NumStates, chainStates_length]

/-- The run of `main` on an accepted line. -/
theorem main_accepted (s : Str) (hs : Accepted s) :
    main s = some ⟨0, some (cleanup (s.flatMap rendering))⟩ := by
  have hn : (StringToFst s buildRules.isyms).NumStates ≠ 0 :=
    NumStates_supported _ _ ((supported_iff_accepted s).2 hs) (fits_accepted s hs)
  unfold main
  simp only []
  rw [if_neg hn, decoded_accepted s hs]

/-- The run of `main` on a line that is not accepted. -/
theorem main_rejected (s : Str) (hs : ¬ Accepted s) : main s = some ⟨1, none⟩ := by
  have h : StringToFst s buildRules.isyms = StdVectorFst.empty :=
    StringToFst_unsupported _ _ (fun h => hs ((supported_iff_accepted s).1 h))
  unfold main
  simp only []
  rw [h]
  rfl

end CaseConverter

/-! ## The conversion pipeline on the classes of input of the specification -/

namespace CaseConverter
open Fst

theorem cleanup_of_no_space (out : Str) (h : ∀ x ∈ out, x ≠ ' ') : cleanup out = out := by
  unfold cleanup
  rw [if_neg]
  rintro ⟨_, hl⟩
  exact h ' ' (List.mem_of_getLast?_eq_some hl) rfl

theorem cleanup_concat_space (out : Str) : cleanup (out ++ [' ']) = out := by
  unfold cleanup
  rw [if_pos ⟨by simp, List.getLast?_concat out⟩, List.dropLast_concat]

theorem rendering_lower_space :
    ∀ c ∈ alphabet, IsLower c ∨ c = ' ' →
      rendering c = (if c = ' ' then "_space_".toList else [c.toUpper]) ∧
      (∀ x ∈ rendering c, x ≠ ' ') ∧
      (rendering c).length = 1 + 6 * (if c = ' ' then 1 else 0) := by
  decide

theorem rendering_digit :
    ∀ c ∈ alphabet, IsDigit c → rendering c = englishName c ++ [' '] := by
  decide

/-- C1, as the code has it. For every string of lowercase letters and spaces
the pipeline ends with status 0 and writes the string in which every letter is
replaced by its uppercase counterpart and every space by the seven characters
`_space_`; no character of the output is a space, and the output is as long as
the input plus 6 for each space of the input. -/
theorem lowercase_space_output (s : Str) (hs : ∀ c ∈ s, IsLower c ∨ c = ' ') :
    main s = some ⟨0, some (s.flatMap
      (fun c => if c = ' ' then "_space_".toList else [c.toUpper]))⟩ ∧
    (∀ x ∈ s.flatMap (fun c => if c = ' ' then "_space_".toList else [c.toUpper]), x ≠ ' ') ∧
    (s.flatMap (fun c => if c = ' ' then "_space_".toList else [c.toUpper])).length =
      s.length + 6 * s.count ' ' := by
  have hacc : Accepted s := fun c hc => (hs c hc).elim Or.inl (fun h => Or.inr (Or.inr h))
  have hr : ∀ c ∈ s, rendering c = (if c = ' ' then "_space_".toList else [c.toUpper]) ∧
      (∀ x ∈ rendering c, x ≠ ' ') ∧
      (rendering c).length = 1 + 6 * (if c = ' ' then 1 else 0) :=
    fun c hc => rendering_lower_space c ((mem_alphabet_iff c).2 (hacc c hc)) (hs c hc)
  have heq : s.flatMap rendering =
      s.flatMap (fun c => if c = ' ' then "_space_".toList else [c.toUpper]) :=
    List.flatMap_congr (fun c hc => (hr c hc).1)
  have hns : ∀ x ∈ s.flatMap rendering, x ≠ ' ' := by
    intro x hx
    obtain ⟨c, hc, hxc⟩ := List.mem_flatMap.1 hx
    exact (hr c hc).2.1 x hxc
  have hlen : (s.flatMap rendering).length = s.length + 6 * s.count ' ' := by
    clear heq hns hacc hs
    induction s with
    | nil => rfl
    | cons c s ih =>
      have h1 := (hr c (List.mem_cons_self _ _)).2.2
      have h2 := ih (fun d hd => hr d (List.mem_cons_of_mem _ hd))
      rw [List.flatMap_cons, List.length_append, h1, h2, List.length_cons, List.count_cons]
      by_cases hc : c = ' '
      · subst hc
        simp
        omega
      · have hc' : ¬ ((' ' : Char) = c) := fun h => hc h.symm
        simp [hc, hc']
        omega
  refine ⟨?_, ?_, ?_⟩
  · rw [main_accepted s hacc, cleanup_of_no_space _ hns, heq]
  · rw [← heq]; exact hns
  · rw [← heq]; exact hlen

/-- The line `hi yo`, of lowercase letters and a space, gives `HI_space_YO`. -/
theorem lowercase_space_output_witness :
    (∀ c ∈ "hi yo".toList, IsLower c ∨ c = ' ') ∧
    main "hi yo".toList = some ⟨0, some "HI_space_YO".toList⟩ :=
  ⟨by decide, (lowercase_space_output "hi yo".toList (by decide)).1.trans (by decide)⟩

/-- C1 fails as stated: on the line `a b`, of lowercase letters and one space,
the pipeline writes `A_space_B`, which has nine characters where the input has
three and holds no space. -/
theorem lowercase_space_not_preserved :
    (∀ c ∈ "a b".toList, IsLower c ∨ c = ' ') ∧
    main "a b".toList = some ⟨0, some "A_space_B".toList⟩ ∧
    "A_space_B".toList.length ≠ "a b".toList.length ∧
    ' ' ∉ "A_space_B".toList :=
  ⟨by decide, (main_accepted "a b".toList (by decide)).trans (by decide), by decide, by decide⟩

/-- C2, as the code has it. On the line `a1 b` the pipeline ends with status 0
and writes exactly `Aone _space_B`: the letters are uppercased, the digit gives
its word and one space after it (none before it), the space gives `_space_`. -/
theorem mixed_input_output :
    main "a1 b".toList = some ⟨0, some "Aone _space_B".toList⟩ :=
  (main_accepted "a1 b".toList (by decide)).trans (by decide)

/-- C2 fails as stated: on the line `a1 b` the pipeline does not write
`A one B`. -/
theorem mixed_input_not_spaced :
    main "a1 b".toList ≠ some ⟨0, some "A one B".toList⟩ := by
  rw [(main_accepted "a1 b".toList (by decide)).trans
    (by decide : _ = some (⟨0, some "Aone _space_B".toList⟩ : Run))]
  decide

theorem flatMap_names (c : Char) (s : Str) :
    (c :: s).flatMap (fun c => englishName c ++ [' ']) =
      List.intercalate [' '] ((c :: s).map englishName) ++ [' '] := by
  induction s generalizing c with
  | nil => simp [List.intercalate, List.intersperse]
  | cons d s ih =>
    rw [List.flatMap_cons, ih d]
    simp [List.intercalate, List.intersperse]

/-- C3. For every string of digits the pipeline ends with status 0 and writes
the English names of the digits in order, joined by single spaces, with no
separator before the first or after the last name; the empty string gives the
empty string. -/
theorem digits_output (s : Str) (hs : ∀ c ∈ s, IsDigit c) :
    main s = some ⟨0, some (List.intercalate [' '] (s.map englishName))⟩ := by
  have hacc : Accepted s := fun c hc => Or.inr (Or.inl (hs c hc))
  have heq : s.flatMap rendering = s.flatMap (fun c => englishName c ++ [' ']) :=
    List.flatMap_congr
      (fun c hc => rendering_digit c ((mem_alphabet_iff c).2 (hacc c hc)) (hs c hc))
  rw [main_accepted s hacc, heq]
  cases s with
  | nil => rfl
  | cons c s => rw [flatMap_names, cleanup_concat_space]

/-- The line `07`, of digits, gives `zero seven`. -/
theorem digits_output_witness :
    (∀ c ∈ "07".toList, IsDigit c) ∧
    main "07".toList = some ⟨0, some "zero seven".toList⟩ :=
  ⟨by decide, (digits_output "07".toList (by decide)).trans (by decide)⟩

/-- C4. `StringToFst` over the input table of `main` returns the graph without
states exactly when the string has a character outside `a-z`, `0-9`, space;
then what it returns is the empty graph, nothing of what was built for the
valid prefix, and `main` ends with status 1 without composing or decoding;
every string over the alphabet gives a graph with at least one state. -/
theorem StringToFst_rejects (s : Str) :
    ((StringToFst s buildRules.isyms).NumStates = 0 ↔
      ∃ c ∈ s, ¬ (IsLower c ∨ IsDigit c ∨ c = ' ')) ∧
    ((∃ c ∈ s, ¬ (IsLower c ∨ IsDigit c ∨ c = ' ')) →
      StringToFst s buildRules.isyms = StdVectorFst.empty ∧ main s = some ⟨1, none⟩) ∧
    ((∀ c ∈ s, IsLower c ∨ IsDigit c ∨ c = ' ') →
      1 ≤ (StringToFst s buildRules.isyms).NumStates) := by
  have hex : (∃ c ∈ s, ¬ (IsLower c ∨ IsDigit c ∨ c = ' ')) ↔ ¬ Accepted s := by
    unfold Accepted
    push_neg
    rfl
  have hrej : ¬ Accepted s → StringToFst s buildRules.isyms = StdVectorFst.empty :=
    fun h => StringToFst_unsupported _ _ (fun h' => h ((supported_iff_accepted s).1 h'))
  have hacc : Accepted s → (StringToFst s buildRules.isyms).NumStates ≠ 0 :=
    fun h => NumStates_supported _ _ ((supported_iff_accepted s).2 h) (fits_accepted s h)
  refine ⟨?_, ?_, ?_⟩
  · rw [hex]
    constructor
    · intro h0 ha
      exact hacc ha h0
    · intro hn
      rw [hrej hn]
      rfl
  · intro h
    exact ⟨hrej (hex.1 h), main_rejected s (hex.1 h)⟩
  · intro h
    exact Nat.pos_of_ne_zero (hacc h)

end CaseConverter

namespace CaseConverter
open Fst

set_option maxRecDepth 100000 in
theorem converter_arcs_alphabet :
    (∀ c ∈ alphabet, IsLower c →
      buildRules.isyms.Find [c] ≠ kNoSymbol ∧ buildRules.osyms.Find [c.toUpper] ≠ kNoSymbol ∧
      (⟨buildRules.isyms.Find [c], buildRules.osyms.Find [c.toUpper], TropicalWeight.One, 0⟩ :
        StdArc) ∈ buildRules.converter_fst.Arcs 0) ∧
    (∀ c ∈ alphabet, IsDigit c →
      buildRules.isyms.Find [c] ≠ kNoSymbol ∧
      buildRules.osyms.Find (englishName c ++ [' ']) ≠ kNoSymbol ∧
      (⟨buildRules.isyms.Find [c], buildRules.osyms.Find (englishName c ++ [' ']),
        TropicalWeight.One, 0⟩ : StdArc) ∈ buildRules.converter_fst.Arcs 0) := by
  decide

set_option maxRecDepth 100000 in
/-- C9. The converter graph of `main` has exactly one state, which is its
start state and is final with weight `One`, and exactly 37 arcs, all of them
self-loops of weight `One`: for each lowercase letter an arc from the letter's
code in the input table to the code of its uppercase counterpart in the output
table, for each digit an arc from the digit's code to the code of the token
made of its English name and one space, and an arc from the code of `_space_`
to the code of `_space_`; these are all the arcs, one per character of the
alphabet, and no two arcs have the same input label. -/
theorem converter_shape :
    buildRules.converter_fst.NumStates = 1 ∧
    buildRules.converter_fst.start = some 0 ∧
    buildRules.converter_fst.Final 0 = TropicalWeight.One ∧
    (buildRules.converter_fst.Arcs 0).length = 37 ∧
    (∀ a ∈ buildRules.converter_fst.Arcs 0,
      a.nextstate = 0 ∧ a.weight = TropicalWeight.One) ∧
    (∀ c : Char, IsLower c →
      buildRules.isyms.Find [c] ≠ kNoSymbol ∧ buildRules.osyms.Find [c.toUpper] ≠ kNoSymbol ∧
      (⟨buildRules.isyms.Find [c], buildRules.osyms.Find [c.toUpper], TropicalWeight.One, 0⟩ :
        StdArc) ∈ buildRules.converter_fst.Arcs 0) ∧
    (∀ c : Char, IsDigit c →
      buildRules.isyms.Find [c] ≠ kNoSymbol ∧
      buildRules.osyms.Find (englishName c ++ [' ']) ≠ kNoSymbol ∧
      (⟨buildRules.isyms.Find [c], buildRules.osyms.Find (englishName c ++ [' ']),
        TropicalWeight.One, 0⟩ : StdArc) ∈ buildRules.converter_fst.Arcs 0) ∧
    (buildRules.isyms.Find "_space_".toList ≠ kNoSymbol ∧
      buildRules.osyms.Find "_space_".toList ≠ kNoSymbol ∧
      (⟨buildRules.isyms.Find "_space_".toList, buildRules.osyms.Find "_space_".toList,
        TropicalWeight.One, 0⟩ : StdArc) ∈ buildRules.converter_fst.Arcs 0) ∧
    buildRules.converter_fst.Arcs 0 = alphabet.map (fun c =>
      (⟨buildRules.isyms.Find (token c), buildRules.osyms.Find (rendering c),
        TropicalWeight.One, 0⟩ : StdArc)) ∧
    ((buildRules.converter_fst.Arcs 0).map (fun a => a.ilabel)).Nodup :=
  ⟨by decide, by decide, by decide, by decide, by decide,
    fun c hc => converter_arcs_alphabet.1 c (mem_alphabet_of_isLower c hc) hc,
    fun c hc => converter_arcs_alphabet.2 c (mem_alphabet_of_isDigit c hc) hc,
    by decide, by decide, by decide⟩

set_option maxRecDepth 100000 in
/-- The line `a b` is supported by the input table of `main`, whose codes fit
an `int`, and its acceptor has four states. -/
theorem StringToFst_shape_witness :
    Supported buildRules.isyms "a b".toList ∧
    FitsInt buildRules.isyms "a b".toList ∧
    (StringToFst "a b".toList buildRules.isyms).NumStates = "a b".toList.length + 1 :=
  ⟨by decide, by decide,
    (StringToFst_shape buildRules.isyms "a b".toList (by decide) (by decide)).1⟩

set_option maxRecDepth 100000 in
/-- The acceptor of the line `a b` is linear, and decoding it with the output
table of `main` gives the tokens along its path. -/
theorem FstToString_linear_witness :
    IsLinear (StringToFst "a b".toList buildRules.isyms)
      (StringToFst "a b".toList buildRules.isyms).path ∧
    FstToString (StringToFst "a b".toList buildRules.isyms) buildRules.osyms =
      some ((StringToFst "a b".toList buildRules.isyms).path.flatMap
        (decodeArc buildRules.osyms)) :=
  ⟨⟨0, by decide, by decide⟩,
    FstToString_linear (StringToFst "a b".toList buildRules.isyms) buildRules.osyms
      (StringToFst "a b".toList buildRules.isyms).path ⟨0, by decide, by decide⟩⟩

end CaseConverter

/-! ## The decoder on a graph without states, and the cleanup of `main` -/

namespace CaseConverter
open Fst

/-- C14. For every symbol table, `FstToString` of a graph with zero states is
the empty string. -/
theorem FstToString_no_states (g : StdVectorFst) (syms : SymbolTable)
    (h : g.NumStates = 0) : FstToString g syms = some [] := by
  rw [FstToString, if_pos h]

/-- The default-constructed graph has no state and decodes to the empty string
with the empty table. -/
theorem FstToString_no_states_witness :
    StdVectorFst.empty.NumStates = 0 ∧
    FstToString StdVectorFst.empty SymbolTable.empty = some [] :=
  ⟨rfl, FstToString_no_states StdVectorFst.empty SymbolTable.empty rfl⟩

theorem cleanup_of_not_space (d : Str) (h : d.getLast? ≠ some ' ') : cleanup d = d := by
  unfold cleanup
  rw [if_neg]
  rintro ⟨_, hl⟩
  exact h hl

theorem rendering_last :
    ∀ c ∈ alphabet, rendering c ≠ [] ∧
      ((rendering c).getLast? ≠ some ' ' ∨
        ((rendering c).getLast? = some ' ' ∧ (rendering c).dropLast ≠ [] ∧
          (rendering c).dropLast.getLast? ≠ some ' ')) := by
  decide

theorem getLast?_append_of_ne_nil (x r : Str) (hr : r ≠ []) :
    (x ++ r).getLast? = r.getLast? := by
  cases hrl : r.getLast? with
  | none => exact absurd (List.getLast?_eq_none_iff.1 hrl) hr
  | some a => simp [List.getLast?_append, hrl]

theorem cleaned_no_trailing_space (s : Str) (hs : Accepted s) :
    (cleanup (s.flatMap rendering)).getLast? ≠ some ' ' := by
  rcases List.eq_nil_or_concat s with rfl | ⟨s', c, rfl⟩
  · simp [cleanup]
  · have hc : c ∈ alphabet := (mem_alphabet_iff c).2 (hs c (by simp))
    obtain ⟨hne, hlast⟩ := rendering_last c hc
    have hd : (s'.concat c).flatMap rendering = s'.flatMap rendering ++ rendering c := by
      simp
    rw [hd]
    rcases hlast with h | ⟨h1, h2, h3⟩
    · have hl : (s'.flatMap rendering ++ rendering c).getLast? ≠ some ' ' := by
        rw [getLast?_append_of_ne_nil _ _ hne]; exact h
      rw [cleanup_of_not_space _ hl]
      exact hl
    · obtain ⟨w, hw⟩ := List.getLast?_eq_some_iff.1 h1
      have hw' : (rendering c).dropLast = w := by rw [hw, List.dropLast_concat]
      rw [hw'] at h2 h3
      rw [hw, ← List.append_assoc, cleanup_concat_space, getLast?_append_of_ne_nil _ _ h2]
      exact h3

/-- C11. For every input string over `a-z`, `0-9`, space, `main` ends with
status 0 and what it writes is the decoded string after the cleanup, which
never ends in a space; the cleanup leaves a string that does not end in a space
unchanged, and removes exactly one space from a string that ends in one. -/
theorem output_never_ends_in_space (s : Str) (hs : Accepted s) :
    FstToString (Compose (StringToFst s buildRules.isyms) buildRules.converter_fst)
      buildRules.osyms = some (s.flatMap rendering) ∧
    main s = some ⟨0, some (cleanup (s.flatMap rendering))⟩ ∧
    (cleanup (s.flatMap rendering)).getLast? ≠ some ' ' ∧
    (∀ d : Str, d.getLast? ≠ some ' ' → cleanup d = d) ∧
    (∀ d : Str, cleanup (d ++ [' ']) = d) :=
  ⟨decoded_accepted s hs, main_accepted s hs, cleaned_no_trailing_space s hs,
    cleanup_of_not_space, cleanup_concat_space⟩

/-- The line `a 7` is accepted and gives `A_space_seven`, the decoded string
`A_space_seven ` without its last space. -/
theorem output_never_ends_in_space_witness :
    Accepted "a 7".toList ∧
    main "a 7".toList = some ⟨0, some "A_space_seven".toList⟩ :=
  ⟨by decide,
    (output_never_ends_in_space "a 7".toList (by decide)).2.1.trans (by decide)⟩

end CaseConverter

/-! ## Composition with a mismatch -/

namespace Fst

theorem Times_Zero_left (w : TropicalWeight) : Times TropicalWeight.Zero w = TropicalWeight.Zero := by
  cases w <;> rfl

theorem chain_Arcs_mem (fin : TropicalWeight) (ls : List (Int × Int)) (j : Nat) (a : StdArc)
    (ha : a ∈ StdVectorFst.Arcs ⟨some 0, chainStates 0 fin ls⟩ j) :
    ∃ l, ls[j]? = some l ∧ a = ⟨l.1, l.2, TropicalWeight.One, j + 1⟩ := by
  simp only [StdVectorFst.Arcs, chainStates_getElem?] at ha
  by_cases c1 : j < ls.length
  · simp only [c1, if_true, List.getElem?_eq_getElem c1, Option.map_some',
      List.mem_singleton] at ha
    exact ⟨ls[j], List.getElem?_eq_getElem c1, by rw [ha]; simp⟩
  · by_cases c2 : j = ls.length
    · simp [c1, c2] at ha
    · simp [c1, c2] at ha

theorem chain_Final_lt (ls : List (Int × Int)) (j : Nat) (hj : j < ls.length) :
    StdVectorFst.Final ⟨some 0, chainStates 0 TropicalWeight.One ls⟩ j = TropicalWeight.Zero := by
  simp [StdVectorFst.Final, chainStates_getElem?, hj, List.getElem?_eq_getElem]

/-- Every move out of a composed state that is in step and not past the
mismatch leads to such a state. -/
theorem composeArcs_inStep (B : StdVectorFst) (ls : List (Int × Int)) (i : Nat)
    (hm : Mismatch B ls i) (t : ComposeTuple) (ht : t.s1 ≤ i ∧ InStep B ls t.s1 t.s2)
    (m : StdArc × ComposeTuple)
    (hmem : m ∈ composeArcs ⟨some 0, chainStates 0 TropicalWeight.One ls⟩ B t) :
    m.2.s1 ≤ i ∧ InStep B ls m.2.s1 m.2.s2 := by
  obtain ⟨l, hl, hl0, hno⟩ := hm
  obtain ⟨hle, hin⟩ := ht
  simp only [composeArcs, List.mem_append] at hmem
  rcases hmem with h | h
  · split at h
    · simp at h
    · simp only [List.mem_map, List.mem_filter] at h
      obtain ⟨a2, ⟨ha2, hlab⟩, rfl⟩ := h
      exact ⟨hle, InStep.eps _ _ a2 hin ha2 (by simpa using hlab)⟩
  · simp only [List.mem_flatMap] at h
    obtain ⟨a1, ha1, h⟩ := h
    obtain ⟨l1, hl1, rfl⟩ := chain_Arcs_mem _ ls t.s1 a1 ha1
    by_cases h0 : l1.2 = 0
    · have hne : t.s1 ≠ i := by
        intro he
        rw [he, hl] at hl1
        cases hl1
        exact hl0 h0
      simp only [h0, beq_self_eq_true, if_true] at h
      split at h
      · simp only [List.mem_singleton] at h
        subst h
        exact ⟨by simp; omega, InStep.skip _ _ l1 hin hl1 h0⟩
      · simp at h
    · have h0' : (l1.2 == 0) = false := by simpa using h0
      simp only [h0', Bool.false_eq_true, if_false, List.mem_map, List.mem_filter] at h
      obtain ⟨a2, ⟨ha2, hlab⟩, rfl⟩ := h
      have hlab' : a2.ilabel = l1.2 := by simpa using hlab
      have hne : t.s1 ≠ i := by
        intro he
        rw [he, hl] at hl1
        cases hl1
        rw [he] at hin
        exact hno t.s2 a2 hin ha2 hlab'
      exact ⟨by simp; omega, InStep.read _ _ l1 a2 hin hl1 h0 ha2 hlab'⟩

theorem expandArcs_table (P : ComposeTuple → Prop) (moves : List (StdArc × ComposeTuple))
    (table : List ComposeTuple) (arcs : List StdArc)
    (ht : ∀ t ∈ table, P t) (hm : ∀ m ∈ moves, P m.2) :
    ∀ t ∈ (expandArcs moves table arcs).1, P t := by
  induction moves generalizing table arcs with
  | nil => simpa [expandArcs] using ht
  | cons m moves ih =>
    obtain ⟨a, t'⟩ := m
    simp only [expandArcs]
    apply ih
    · intro t hmem
      simp only [findState] at hmem
      split at hmem
      · exact ht t hmem
      · rcases List.mem_append.1 hmem with h | h
        · exact ht t h
        · have : t = t' := by simpa using h
          subst this
          exact hm (a, t) (List.mem_cons_self _ _)
    · intro m hmem
      exact hm m (List.mem_cons_of_mem _ hmem)

theorem composeLoop_noFinal (B : StdVectorFst) (ls : List (Int × Int)) (i : Nat)
    (hm : Mismatch B ls i) (fuel k : Nat) (table : List ComposeTuple)
    (states : List VectorState)
    (ht : ∀ t ∈ table, t.s1 ≤ i ∧ InStep B ls t.s1 t.s2) (hs : NoFinal states) :
    NoFinal (composeLoop ⟨some 0, chainStates 0 TropicalWeight.One ls⟩ B fuel k table states) := by
  induction fuel generalizing k table states with
  | zero => simpa [composeLoop] using hs
  | succ fuel ih =>
    rw [composeLoop]
    cases hk : table[k]? with
    | none => simpa using hs
    | some t =>
      simp only []
      have htm : t ∈ table := List.getElem?_mem hk
      have hP := ht t htm
      have hi : i < ls.length := by
        obtain ⟨l, hl, _⟩ := hm
        exact (List.getElem?_eq_some_iff.1 hl).1
      apply ih
      · exact expandArcs_table _ _ _ _ ht (fun m hmem => composeArcs_inStep B ls i hm t hP m hmem)
      · intro st hst
        rcases List.mem_append.1 hst with h | h
        · exact hs st h
        · have : st = _ := List.mem_singleton.1 h
          rw [this]
          show Times _ _ = TropicalWeight.Zero
          rw [chain_Final_lt ls t.s1 (by omega)]
          exact Times_Zero_left _

theorem coreachIn_noFinal (g : StdVectorFst) (h : NoFinal g.states) (fuel s : Nat) :
    coreachIn g fuel s = false := by
  have hF : ∀ s, g.Final s = TropicalWeight.Zero := by
    intro s
    simp only [StdVectorFst.Final]
    cases hs : g.states[s]? with
    | none => rfl
    | some st => exact h st (List.getElem?_mem hs)
  induction fuel generalizing s with
  | zero => simp [coreachIn, hF]
  | succ fuel ih => simp [coreachIn, hF, ih]

theorem Connect_noFinal (g : StdVectorFst) (h : NoFinal g.states) :
    Connect g = StdVectorFst.empty := by
  have hk : ∀ s, (g.accessible s && g.coaccessible s) = false := by
    intro s
    simp [StdVectorFst.coaccessible, coreachIn_noFinal g h]
  simp only [Connect, hk, StdVectorFst.empty]
  cases g.start <;> simp

/-- The composition of a chain with a graph that misses one of its labels has
no state. -/
theorem Compose_mismatch (B : StdVectorFst) (ls : List (Int × Int)) (i : Nat)
    (hm : Mismatch B ls i) :
    Compose ⟨some 0, chainStates 0 TropicalWeight.One ls⟩ B = StdVectorFst.empty := by
  unfold Compose
  cases hB : B.start with
  | none => rfl
  | some s2 =>
    simp only []
    apply Connect_noFinal
    apply composeLoop_noFinal B ls i hm
    · intro t ht
      have : t = ⟨0, s2, 0⟩ := by simpa using ht
      subst this
      exact ⟨Nat.zero_le _, InStep.start s2 hB⟩
    · intro st hst
      simp at hst

end Fst

/-! ## Composition of the acceptor of the empty string, and of a mismatch -/

namespace CaseConverter
open Fst

theorem StringToFst_nil (syms : SymbolTable) :
    StringToFst [] syms = ⟨some 0, chainStates 0 TropicalWeight.One []⟩ := rfl

theorem composeLoop_single (A B : StdVectorFst) (t : ComposeTuple) (fuel : Nat)
    (h : composeArcs A B t = []) :
    composeLoop A B (fuel + 1) 0 [t] [] = [⟨Times (A.Final t.s1) (B.Final t.s2), []⟩] := by
  rw [composeLoop]
  simp only [List.getElem?_cons_zero, h, expandArcs, List.nil_append]
  cases fuel with
  | zero => rfl
  | succ fuel => simp [composeLoop]

theorem composeArcs_nil_acceptor (B : StdVectorFst) (s2 : Nat)
    (h : ∀ a ∈ B.Arcs s2, a.ilabel ≠ 0) :
    composeArcs ⟨some 0, chainStates 0 TropicalWeight.One []⟩ B ⟨0, s2, 0⟩ = [] := by
  have hf : (B.Arcs s2).filter (fun a => a.ilabel == 0) = [] := by
    rw [List.filter_eq_nil_iff]
    intro a ha
    simpa using h a ha
  have hA : StdVectorFst.Arcs ⟨some 0, chainStates 0 TropicalWeight.One []⟩ 0 = [] := rfl
  simp [composeArcs, hA, hf]

/-- The composition of the acceptor of the empty string with a graph whose
start state has no arc reading epsilon decodes to the empty string. -/
theorem decode_Compose_nil (B : StdVectorFst) (osyms : SymbolTable)
    (h : ∀ q, B.start = some q → ∀ a ∈ B.Arcs q, a.ilabel ≠ 0) :
    FstToString (Compose ⟨some 0, chainStates 0 TropicalWeight.One []⟩ B) osyms = some [] := by
  unfold Compose
  cases hB : B.start with
  | none => rfl
  | some s2 =>
    simp only []
    have hfuel : 2 * (StdVectorFst.NumStates ⟨some 0, chainStates 0 TropicalWeight.One []⟩ + 1) *
        (B.NumStates + 1) = (2 * (1 + 1) * (B.NumStates + 1) - 1) + 1 := by
      simp [StdVectorFst.NumStates, chainStates]
      omega
    rw [hfuel, composeLoop_single _ _ _ _ (composeArcs_nil_acceptor B s2 (h s2 hB))]
    cases hw : Times (StdVectorFst.Final ⟨some 0, chainStates 0 TropicalWeight.One []⟩ 0)
        (B.Final s2) with
    | none =>
      have hnf : NoFinal (StdVectorFst.states ⟨some 0, [⟨none, []⟩]⟩) := by
        intro st hst
        have : st = ⟨none, []⟩ := by simpa using hst
        rw [this]
        rfl
      rw [Connect_noFinal _ hnf]
      rfl
    | some w =>
      have hc := Connect_chain (some w) (by simp [TropicalWeight.Zero]) []
      simp only [chainStates] at hc
      rw [hc]
      exact FstToString_of_linear _ osyms [] ⟨0, rfl, rfl⟩

/-- C12, as the code has it. For every transformation graph `B` whose start
state has no arc reading epsilon, and every pair of tables, composing the
acceptor of the empty string with `B` and decoding the result gives the empty
string, and no error. -/
theorem empty_string_composition (B : StdVectorFst) (isyms osyms : SymbolTable)
    (h : ∀ q, B.start = some q → ∀ a ∈ B.Arcs q, a.ilabel ≠ 0) :
    FstToString (Compose (StringToFst [] isyms) B) osyms = some [] := by
  rw [StringToFst_nil]
  exact decode_Compose_nil B osyms h

set_option maxRecDepth 100000 in
/-- The converter graph of `main` has no arc reading epsilon at its start
state, and the empty line composed with it decodes to the empty string. -/
theorem empty_string_composition_witness :
    (∀ q, buildRules.converter_fst.start = some q →
      ∀ a ∈ buildRules.converter_fst.Arcs q, a.ilabel ≠ 0) ∧
    FstToString (Compose (StringToFst [] buildRules.isyms) buildRules.converter_fst)
      buildRules.osyms = some [] :=
  ⟨fun q hq => by
      have h0 : q = 0 := by
        have := converter_base.1
        rw [this] at hq
        exact (Option.some.inj hq).symm
      subst h0
      decide,
    empty_string_composition buildRules.converter_fst buildRules.isyms buildRules.osyms
      (fun q hq => by
        have h0 : q = 0 := by
          have := converter_base.1
          rw [this] at hq
          exact (Option.some.inj hq).symm
        subst h0
        decide)⟩

set_option maxRecDepth 100000 in
/-- C12 fails as stated: the graph with the arc `0 -> 1` reading epsilon and
writing label 1, state 1 final, composed with the acceptor of the empty string
and decoded with the output table of `main`, gives `A`, not the empty string. -/
theorem empty_string_composition_epsilon :
    FstToString
      (Compose (StringToFst [] buildRules.isyms)
        ⟨some 0, [⟨TropicalWeight.Zero, [⟨0, 1, TropicalWeight.One, 1⟩]⟩,
          ⟨TropicalWeight.One, []⟩]⟩)
      buildRules.osyms = some ['A'] ∧
    (some ['A'] : Option Str) ≠ some [] := by
  decide

/-- C13. For every linear acceptor (the chain of arcs of weight `One` that
`StringToFst` builds, whatever its labels) and every transformation graph `B`
such that at some position the acceptor gives a label, not epsilon, that no arc
of `B` reachable in step with the acceptor reads, the composition has zero
states, and `FstToString` of it is the empty string with every table. -/
theorem mismatch_no_output (B : StdVectorFst) (ls : List (Int × Int)) (syms : SymbolTable)
    (i : Nat) (hm : Mismatch B ls i) :
    (Compose ⟨some 0, chainStates 0 TropicalWeight.One ls⟩ B).NumStates = 0 ∧
    FstToString (Compose ⟨some 0, chainStates 0 TropicalWeight.One ls⟩ B) syms = some [] := by
  rw [Compose_mismatch B ls i hm]
  exact ⟨rfl, rfl⟩

set_option maxRecDepth 100000 in
/-- The acceptor of the line `b` is the chain with the one label 2, the graph
with the single arc `1 : 5` on its one state has no arc reading 2, and their
composition has no state and decodes to the empty string. -/
theorem mismatch_no_output_witness :
    StringToFst "b".toList buildRules.isyms =
      ⟨some 0, chainStates 0 TropicalWeight.One [(2, 2)]⟩ ∧
    Mismatch ⟨some 0, [⟨TropicalWeight.One, [⟨1, 5, TropicalWeight.One, 0⟩]⟩]⟩ [(2, 2)] 0 ∧
    (Compose ⟨some 0, chainStates 0 TropicalWeight.One [(2, 2)]⟩
      ⟨some 0, [⟨TropicalWeight.One, [⟨1, 5, TropicalWeight.One, 0⟩]⟩]⟩).NumStates = 0 :=
  have hm : Mismatch ⟨some 0, [⟨TropicalWeight.One, [⟨1, 5, TropicalWeight.One, 0⟩]⟩]⟩
      [(2, 2)] 0 :=
    ⟨(2, 2), rfl, by decide, fun q a _ ha => by
      cases q with
      | zero =>
        have : a = ⟨1, 5, TropicalWeight.One, 0⟩ := by simpa [StdVectorFst.Arcs] using ha
        rw [this]
        decide
      | succ q => simp [StdVectorFst.Arcs] at ha⟩
  ⟨by decide, hm, (mismatch_no_output _ _ SymbolTable.empty 0 hm).1⟩

end CaseConverter

/-! ## The shape of the acceptor and of its composition with the converter -/

namespace Fst

theorem chain_shape (ls : List (Int × Int)) :
    StdVectorFst.NumStates ⟨some 0, chainStates 0 TropicalWeight.One ls⟩ = ls.length + 1 ∧
    (∀ i, i < ls.length + 1 →
      StdVectorFst.accessible ⟨some 0, chainStates 0 TropicalWeight.One ls⟩ i = true) ∧
    (∀ i, (StdVectorFst.Arcs ⟨some 0, chainStates 0 TropicalWeight.One ls⟩ i).length ≤ 1) ∧
    (∀ i, StdVectorFst.Final ⟨some 0, chainStates 0 TropicalWeight.One ls⟩ i ≠
        TropicalWeight.Zero →
      StdVectorFst.Arcs ⟨some 0, chainStates 0 TropicalWeight.One ls⟩ i = []) ∧
    IsLinear ⟨some 0, chainStates 0 TropicalWeight.One ls⟩ (chainArcs 0 ls) ∧
    StdVectorFst.path ⟨some 0, chainStates 0 TropicalWeight.One ls⟩ = chainArcs 0 ls := by
  refine ⟨?_, ?_, ?_, ?_, ?_, ?_⟩
  · simp [StdVectorFst.NumStates, chainStates_length]
  · intro i hi
    exact chain_accessible _ ls i (by omega)
  · intro i
    simp only [StdVectorFst.Arcs, chainStates_getElem?]
    by_cases c1 : i < ls.length
    · simp [c1, List.getElem?_eq_getElem]
    · by_cases c2 : i = ls.length
      · simp [c2]
      · simp [c1, c2]
  · intro i
    simp only [StdVectorFst.Arcs, StdVectorFst.Final, chainStates_getElem?]
    by_cases c1 : i < ls.length
    · simp [c1, List.getElem?_eq_getElem, TropicalWeight.Zero]
    · by_cases c2 : i = ls.length
      · simp [c2]
      · simp [c1, c2]
  · exact ⟨0, rfl, linearPath_chain _ 0 TropicalWeight.One _
      (by simp [TropicalWeight.One, TropicalWeight.Zero]) (by simp)⟩
  · simp only [StdVectorFst.path, StdVectorFst.NumStates, chainStates_length]
    exact followArcs_chain _ 0 TropicalWeight.One ls _ (by omega) (by simp)

end Fst

namespace CaseConverter
open Fst

/-- The arcs at position `i` of the acceptor of a supported string, of a graph
that answers its labels, and of their composition. -/
theorem composed_arcs (isyms : SymbolTable) (B : StdVectorFst) (out : Int → Int) (s : Str)
    (hsup : Supported isyms s) (hfit : FitsInt isyms s)
    (hB : Answers B out (acceptorLabels isyms s))
    (i : Nat) (h : i < s.length) :
    (StringToFst s isyms).Arcs i =
      [⟨isyms.Find (token (s.get ⟨i, h⟩)), isyms.Find (token (s.get ⟨i, h⟩)),
        TropicalWeight.One, i + 1⟩] ∧
    (B.Arcs 0).filter (fun a => a.ilabel == isyms.Find (token (s.get ⟨i, h⟩))) =
      [⟨isyms.Find (token (s.get ⟨i, h⟩)), out (isyms.Find (token (s.get ⟨i, h⟩))),
        TropicalWeight.One, 0⟩] ∧
    (Compose (StringToFst s isyms) B).Arcs i =
      [⟨isyms.Find (token (s.get ⟨i, h⟩)), out (isyms.Find (token (s.get ⟨i, h⟩))),
        TropicalWeight.One, i + 1⟩] := by
  have hmem : (isyms.Find (token (s.get ⟨i, h⟩)), isyms.Find (token (s.get ⟨i, h⟩))) ∈
      acceptorLabels isyms s := by
    simp only [acceptorLabels, List.mem_map]
    exact ⟨s.get ⟨i, h⟩, List.get_mem _ _ _, rfl⟩
  refine ⟨?_, (hB.2.2.2 _ hmem).2, ?_⟩
  · rw [StringToFst_supported isyms s hsup hfit]
    simp [StdVectorFst.Arcs, chainStates_getElem?, acceptorLabels_length, h, acceptorLabels,
      List.getElem?_eq_getElem]
  · rw [Compose_acceptor isyms B out s hsup hfit hB]
    simp [StdVectorFst.Arcs, chainStates_getElem?, acceptorLabels_length, h, acceptorLabels,
      List.getElem?_eq_getElem]

theorem composed_arcs_zip (isyms : SymbolTable) (B : StdVectorFst) (out : Int → Int) (s : Str)
    (hsup : Supported isyms s) (hfit : FitsInt isyms s)
    (hB : Answers B out (acceptorLabels isyms s))
    (i : Nat) (h : i < s.length) :
    ∃ a b, (StringToFst s isyms).Arcs i = [a] ∧
      (B.Arcs 0).filter (fun x => x.ilabel == a.olabel) = [b] ∧
      (Compose (StringToFst s isyms) B).Arcs i =
        [⟨a.ilabel, b.olabel, Times a.weight b.weight, i + 1⟩] ∧
      Times a.weight b.weight = TropicalWeight.One := by
  obtain ⟨ha, hb, hg⟩ := composed_arcs isyms B out s hsup hfit hB i h
  exact ⟨_, _, ha, hb, hg, rfl⟩

/-- C15. For every string `s` of length `n` over `a-z`, `0-9`, space, the
composition of `StringToFst(s)` with the converter graph does not fail: it has
exactly `n + 1` states and is a single path of `n` arcs from state 0; its
`i`-th arc goes from state `i` to state `i + 1`, has the input label of the
`i`-th arc of the acceptor, the output label of the one arc of the converter
whose input label matches the acceptor's label, and as weight the product of
the two weights, which is `One`. -/
theorem composition_zips (s : Str) (hs : Accepted s) :
    (Compose (StringToFst s buildRules.isyms) buildRules.converter_fst).NumStates =
      s.length + 1 ∧
    IsLinear (Compose (StringToFst s buildRules.isyms) buildRules.converter_fst)
      (Compose (StringToFst s buildRules.isyms) buildRules.converter_fst).path ∧
    (Compose (StringToFst s buildRules.isyms) buildRules.converter_fst).path.length =
      s.length ∧
    (∀ (i : Nat), i < s.length → ∃ a b,
      (StringToFst s buildRules.isyms).Arcs i = [a] ∧
      (buildRules.converter_fst.Arcs 0).filter (fun x => x.ilabel == a.olabel) = [b] ∧
      (Compose (StringToFst s buildRules.isyms) buildRules.converter_fst).Arcs i =
        [⟨a.ilabel, b.olabel, Times a.weight b.weight, i + 1⟩] ∧
      Times a.weight b.weight = TropicalWeight.One) := by
  have hsup := (supported_iff_accepted s).2 hs
  have hB := converter_answers s hs
  have hc := Compose_acceptor buildRules.isyms buildRules.converter_fst id s hsup
    (fits_accepted s hs) hB
  have hsh := chain_shape ((acceptorLabels buildRules.isyms s).map (fun l => (l.1, id l.2)))
  rw [← hc] at hsh
  obtain ⟨h1, _, _, _, h5, h6⟩ := hsh
  refine ⟨?_, ?_, ?_, ?_⟩
  · rw [h1, List.length_map, acceptorLabels_length]
  · rw [h6]; exact h5
  · rw [h6, chainArcs_length, List.length_map, acceptorLabels_length]
  · intro i hi
    exact composed_arcs_zip buildRules.isyms buildRules.converter_fst id s hsup
      (fits_accepted s hs) hB i hi

set_option maxRecDepth 100000 in
/-- The line `a1` is accepted, and its composition with the converter has three
states. -/
theorem composition_zips_witness :
    Accepted "a1".toList ∧
    (Compose (StringToFst "a1".toList buildRules.isyms) buildRules.converter_fst).NumStates =
      "a1".toList.length + 1 :=
  ⟨by decide, (composition_zips "a1".toList (by decide)).1⟩

/-- C17. For every string over `a-z`, `0-9`, space, the acceptor
`StringToFst(s)` and its composition with the converter graph are linear
graphs of `n + 1` states: there is one start state, every state is reachable
from it, each state has at most one outgoing arc, a final state has none, and
from the start state the graph is a single path to a final state. -/
theorem acceptor_and_composition_linear (s : Str) (hs : Accepted s) :
    IsLinearGraph (StringToFst s buildRules.isyms) ∧
    (StringToFst s buildRules.isyms).NumStates = s.length + 1 ∧
    IsLinearGraph (Compose (StringToFst s buildRules.isyms) buildRules.converter_fst) ∧
    (Compose (StringToFst s buildRules.isyms) buildRules.converter_fst).NumStates =
      s.length + 1 := by
  have hsup := (supported_iff_accepted s).2 hs
  have hB := converter_answers s hs
  have hc := Compose_acceptor buildRules.isyms buildRules.converter_fst id s hsup
    (fits_accepted s hs) hB
  have ha := StringToFst_supported buildRules.isyms s hsup (fits_accepted s hs)
  have key : ∀ (G : StdVectorFst) (ls : List (Int × Int)), ls.length = s.length →
      G = ⟨some 0, chainStates 0 TropicalWeight.One ls⟩ →
      IsLinearGraph G ∧ G.NumStates = s.length + 1 := by
    intro G ls hlen hGe
    obtain ⟨h1, h2, h3, h4, h5, h6⟩ := chain_shape ls
    rw [← hGe] at h1 h2 h3 h4 h5 h6
    refine ⟨⟨⟨0, by rw [hGe]⟩, ?_, h3, h4, by rw [h6]; exact h5⟩, by rw [h1, hlen]⟩
    intro i hi
    exact h2 i (by rw [h1] at hi; exact hi)
  obtain ⟨k1, k2⟩ := key _ _ (acceptorLabels_length _ _) ha
  obtain ⟨k3, k4⟩ := key _ _ (by rw [List.length_map, acceptorLabels_length]) hc
  exact ⟨k1, k2, k3, k4⟩

set_option maxRecDepth 100000 in
/-- The line `a1` is accepted, and its acceptor has three states. -/
theorem acceptor_and_composition_linear_witness :
    Accepted "a1".toList ∧
    (StringToFst "a1".toList buildRules.isyms).NumStates = "a1".toList.length + 1 :=
  ⟨by decide, (acceptor_and_composition_linear "a1".toList (by decide)).2.1⟩

set_option maxRecDepth 100000 in
theorem converter_labels_equal :
    ∀ a ∈ buildRules.converter_fst.Arcs 0, a.ilabel = a.olabel := by
  decide

/-- C20. Every arc of the converter graph has the same number as input and as
output label, so for every string over `a-z`, `0-9`, space the composition is
the acceptor itself, and decoding the acceptor with the output table gives what
decoding the composition gives. -/
theorem composition_changes_no_label (s : Str) (hs : Accepted s) :
    (∀ a ∈ buildRules.converter_fst.Arcs 0, a.ilabel = a.olabel) ∧
    Compose (StringToFst s buildRules.isyms) buildRules.converter_fst =
      StringToFst s buildRules.isyms ∧
    FstToString (StringToFst s buildRules.isyms) buildRules.osyms =
      FstToString (Compose (StringToFst s buildRules.isyms) buildRules.converter_fst)
        buildRules.osyms := by
  have hsup := (supported_iff_accepted s).2 hs
  have hB := converter_answers s hs
  have hc := Compose_acceptor buildRules.isyms buildRules.converter_fst id s hsup
    (fits_accepted s hs) hB
  have ha := StringToFst_supported buildRules.isyms s hsup (fits_accepted s hs)
  have hid : (acceptorLabels buildRules.isyms s).map (fun l => (l.1, id l.2)) =
      acceptorLabels buildRules.isyms s := by
    simp
  have heq : Compose (StringToFst s buildRules.isyms) buildRules.converter_fst =
      StringToFst s buildRules.isyms := by
    rw [hc, hid, ha]
  exact ⟨converter_labels_equal, heq, by rw [heq]⟩

set_option maxRecDepth 100000 in
/-- The line `a 7` is accepted, and decoding its acceptor with the output table
gives `A_space_seven `, as decoding the composition does. -/
theorem composition_changes_no_label_witness :
    Accepted "a 7".toList ∧
    FstToString (StringToFst "a 7".toList buildRules.isyms) buildRules.osyms =
      some "A_space_seven ".toList :=
  ⟨by decide,
    ((composition_changes_no_label "a 7".toList (by decide)).2.2.trans
      (decoded_accepted "a 7".toList (by decide))).trans (by decide)⟩

end CaseConverter

/-! ## The lookup map, the symbol tables, injectivity -/

namespace CaseConverter
open Fst

set_option maxRecDepth 100000 in
theorem lookupChar_alphabet : ∀ c ∈ alphabet, lookupChar buildRules c = rendering c := by
  decide

theorem directConvert_accepted (s : Str) (hs : Accepted s) :
    directConvert buildRules s = s.flatMap rendering :=
  List.flatMap_congr (fun c hc => lookupChar_alphabet c ((mem_alphabet_iff c).2 (hs c hc)))

theorem accepted_append (s t : Str) (hs : Accepted s) (ht : Accepted t) : Accepted (s ++ t) := by
  intro c hc
  rcases List.mem_append.1 hc with h | h
  · exact hs c h
  · exact ht c h

/-- C16. The graph pipeline is the direct lookup: for every string over `a-z`,
`0-9`, space, decoding the composition of its acceptor with the converter gives
the concatenation over its characters of what the lookup map read off the arcs
of the converter gives for each; so what a character gives does not depend on
its neighbours or its position: the decoding of `s ++ t` is the decoding of `s`
followed by the decoding of `t`. -/
theorem pipeline_is_lookup (s t : Str) (hs : Accepted s) (ht : Accepted t) :
    FstToString (Compose (StringToFst s buildRules.isyms) buildRules.converter_fst)
      buildRules.osyms = some (directConvert buildRules s) ∧
    FstToString (Compose (StringToFst (s ++ t) buildRules.isyms) buildRules.converter_fst)
      buildRules.osyms = some (directConvert buildRules s ++ directConvert buildRules t) := by
  constructor
  · rw [decoded_accepted s hs, directConvert_accepted s hs]
  · rw [decoded_accepted (s ++ t) (accepted_append s t hs ht), directConvert_accepted s hs,
      directConvert_accepted t ht, List.flatMap_append]

set_option maxRecDepth 100000 in
/-- The lines `a1` and ` b` are accepted; by lookup `a1` gives `Aone `. -/
theorem pipeline_is_lookup_witness :
    Accepted "a1".toList ∧ Accepted " b".toList ∧
    FstToString (Compose (StringToFst "a1".toList buildRules.isyms) buildRules.converter_fst)
      buildRules.osyms = some "Aone ".toList :=
  ⟨by decide, by decide,
    (pipeline_is_lookup "a1".toList " b".toList (by decide) (by decide)).1.trans (by decide)⟩

theorem Find_of_not_mem (T : SymbolTable) (t : Str) (h : t ∉ T.symbols.map (fun e => e.1)) :
    T.Find t = kNoSymbol := by
  have hnone : T.symbols.find? (fun e => e.1 == t) = none := by
    rw [List.find?_eq_none]
    intro e he hp
    apply h
    have : e.1 = t := by simpa using hp
    rw [← this]
    exact List.mem_map_of_mem _ he
  rw [SymbolTable.Find, hnone]

set_option maxRecDepth 100000 in
/-- C18. In the input table and in the output table of `main` the codes are
exactly `0 .. 37` in the order of insertion, so without gap and none twice, no
token occurs twice, code 0 is the epsilon token `<eps>`, resolving the code
found for a token of the table gives the token back, looking up a token that is
not in the table gives the sentinel `kNoSymbol`, and the sentinel is none of the
codes. -/
theorem tables_dense_and_unique :
    (buildRules.isyms.symbols.map (fun e => e.2) = (List.range 38).map Int.ofNat ∧
      (buildRules.isyms.symbols.map (fun e => e.1)).Nodup ∧
      buildRules.isyms.FindSymbol 0 = "<eps>".toList ∧
      buildRules.isyms.Find "<eps>".toList = 0 ∧
      (∀ e ∈ buildRules.isyms.symbols,
        buildRules.isyms.Find e.1 = e.2 ∧ buildRules.isyms.FindSymbol e.2 = e.1) ∧
      (∀ t : Str, t ∉ buildRules.isyms.symbols.map (fun e => e.1) →
        buildRules.isyms.Find t = kNoSymbol) ∧
      kNoSymbol ∉ buildRules.isyms.symbols.map (fun e => e.2)) ∧
    (buildRules.osyms.symbols.map (fun e => e.2) = (List.range 38).map Int.ofNat ∧
      (buildRules.osyms.symbols.map (fun e => e.1)).Nodup ∧
      buildRules.osyms.FindSymbol 0 = "<eps>".toList ∧
      buildRules.osyms.Find "<eps>".toList = 0 ∧
      (∀ e ∈ buildRules.osyms.symbols,
        buildRules.osyms.Find e.1 = e.2 ∧ buildRules.osyms.FindSymbol e.2 = e.1) ∧
      (∀ t : Str, t ∉ buildRules.osyms.symbols.map (fun e => e.1) →
        buildRules.osyms.Find t = kNoSymbol) ∧
      kNoSymbol ∉ buildRules.osyms.symbols.map (fun e => e.2)) :=
  ⟨⟨by decide, by decide, by decide, by decide, by decide,
      fun t ht => Find_of_not_mem buildRules.isyms t ht, by decide⟩,
    ⟨by decide, by decide, by decide, by decide, by decide,
      fun t ht => Find_of_not_mem buildRules.osyms t ht, by decide⟩⟩

theorem rendering_prefix_free :
    ∀ c ∈ alphabet, ∀ d ∈ alphabet, rendering c <+: rendering d → c = d := by
  decide

theorem rendering_head :
    ∀ c ∈ alphabet, rendering c ≠ [] ∧ (rendering c).head? ≠ some ' ' := by
  decide

theorem rendering_cancel (c d : Char) (hc : c ∈ alphabet) (hd : d ∈ alphabet) (u v : Str)
    (h : rendering c ++ u = rendering d ++ v) : c = d ∧ u = v := by
  have hcd : c = d := by
    rcases List.append_eq_append_iff.1 h with ⟨a, h1, _⟩ | ⟨a, h1, _⟩
    · exact rendering_prefix_free c hc d hd ⟨a, h1.symm⟩
    · exact (rendering_prefix_free d hd c hc ⟨a, h1.symm⟩).symm
  subst hcd
  exact ⟨rfl, List.append_cancel_left h⟩

theorem flatMap_rendering_injective (s t : Str) (hs : Accepted s) (ht : Accepted t)
    (h : s.flatMap rendering = t.flatMap rendering) : s = t := by
  induction s generalizing t with
  | nil =>
    cases t with
    | nil => rfl
    | cons d t =>
      have hd := (rendering_head d ((mem_alphabet_iff d).2 (ht d (List.mem_cons_self _ _)))).1
      simp only [List.flatMap_nil, List.flatMap_cons] at h
      have := (List.append_eq_nil.1 h.symm).1
      exact absurd this hd
  | cons c s ih =>
    have hc := (mem_alphabet_iff c).2 (hs c (List.mem_cons_self _ _))
    cases t with
    | nil =>
      simp only [List.flatMap_nil, List.flatMap_cons] at h
      exact absurd (List.append_eq_nil.1 h).1 (rendering_head c hc).1
    | cons d t =>
      have hd := (mem_alphabet_iff d).2 (ht d (List.mem_cons_self _ _))
      simp only [List.flatMap_cons] at h
      obtain ⟨h1, h2⟩ := rendering_cancel c d hc hd _ _ h
      rw [h1, ih t (fun x hx => hs x (List.mem_cons_of_mem _ hx))
        (fun x hx => ht x (List.mem_cons_of_mem _ hx)) h2]

theorem flatMap_rendering_no_extra_space (s t : Str) (hs : Accepted s) (ht : Accepted t) :
    s.flatMap rendering ≠ t.flatMap rendering ++ [' '] := by
  induction s generalizing t with
  | nil => simp
  | cons c s ih =>
    have hc := (mem_alphabet_iff c).2 (hs c (List.mem_cons_self _ _))
    intro h
    cases t with
    | nil =>
      simp only [List.flatMap_nil, List.flatMap_cons, List.nil_append] at h
      obtain ⟨hne, hh⟩ := rendering_head c hc
      cases hr : rendering c with
      | nil => exact hne hr
      | cons x r =>
        rw [hr] at h hh
        simp only [List.cons_append, List.cons.injEq] at h
        exact hh (by rw [h.1]; rfl)
    | cons d t =>
      have hd := (mem_alphabet_iff d).2 (ht d (List.mem_cons_self _ _))
      simp only [List.flatMap_cons, List.append_assoc] at h
      obtain ⟨_, h2⟩ := rendering_cancel c d hc hd _ _ h
      exact ih t (fun x hx => hs x (List.mem_cons_of_mem _ hx))
        (fun x hx => ht x (List.mem_cons_of_mem _ hx)) h2

theorem cleanup_decoded_injective (s t : Str) (hs : Accepted s) (ht : Accepted t)
    (h : cleanup (s.flatMap rendering) = cleanup (t.flatMap rendering)) :
    s.flatMap rendering = t.flatMap rendering := by
  by_cases h1 : (s.flatMap rendering).getLast? = some ' '
  · obtain ⟨x, hx⟩ := List.getLast?_eq_some_iff.1 h1
    by_cases h2 : (t.flatMap rendering).getLast? = some ' '
    · obtain ⟨y, hy⟩ := List.getLast?_eq_some_iff.1 h2
      rw [hx, hy, cleanup_concat_space, cleanup_concat_space] at h
      rw [hx, hy, h]
    · rw [hx, cleanup_concat_space, cleanup_of_not_space _ h2] at h
      rw [h] at hx
      exact absurd hx (flatMap_rendering_no_extra_space s t hs ht)
  · by_cases h2 : (t.flatMap rendering).getLast? = some ' '
    · obtain ⟨y, hy⟩ := List.getLast?_eq_some_iff.1 h2
      rw [hy, cleanup_concat_space, cleanup_of_not_space _ h1] at h
      rw [← h] at hy
      exact absurd hy (flatMap_rendering_no_extra_space t s ht hs)
    · rw [cleanup_of_not_space _ h1, cleanup_of_not_space _ h2] at h
      exact h

/-- C19. The conversion pipeline is injective on the accepted inputs: two
strings over `a-z`, `0-9`, space for which `main` writes the same output are
the same string. -/
theorem pipeline_injective (s t : Str) (hs : Accepted s) (ht : Accepted t)
    (h : main s = main t) : s = t := by
  rw [main_accepted s hs, main_accepted t ht] at h
  have h' : cleanup (s.flatMap rendering) = cleanup (t.flatMap rendering) := by
    simpa using h
  exact flatMap_rendering_injective s t hs ht (cleanup_decoded_injective s t hs ht h')

/-- The line `a1` is accepted, and gives the same output as itself. -/
theorem pipeline_injective_witness :
    Accepted "a1".toList ∧ main "a1".toList = main "a1".toList ∧
    "a1".toList = "a1".toList :=
  ⟨by decide, rfl, pipeline_injective "a1".toList "a1".toList (by decide) (by decide) rfl⟩

end CaseConverter
